import Mathlib

/-!
The bloom filter and the skiplist of corekv.

A shallow embedding of `utils/bloom.go` and `utils/skiplist.go`.

Conventions of the embedding

* Go `int` is the 64-bit signed integer: it is an `Int` reduced with `wrapInt64`
  after every operation that can leave the range.
* Go `uint32` is a `Nat` reduced with `% 2^32` after every operation that can
  leave the range.
* A `byte` is a `Fin 256`; a `[]byte` is a `List Byte`.
* Run-time panics (index out of range, integer division by zero, `make` with a
  negative length) are the result `none`.
* `float64` values that occur are non-negative finite numbers; they are
  represented by their exact value, and every rounding step is written out.
-/

namespace Corekv

/-- A Go `byte`. -/
abbrev Byte := Fin 256

/-! ## Machine arithmetic -/

/-- Reduction of a mathematical integer to the Go 64-bit `int` it is stored in. -/
def wrapInt64 (x : Int) : Int := (x + 2 ^ 63) % 2 ^ 64 - 2 ^ 63

/-- Go conversion `uint32(x)` of an `int`. -/
def toUint32 (x : Int) : Nat := (x % 2 ^ 32).toNat

/-- Number of binary digits of `x`, for `x < 2 ^ fuel`. -/
def bitLen : Nat → Nat → Nat
  | 0, _ => 0
  | fuel + 1, x => if x = 0 then 0 else bitLen fuel (x / 2) + 1

/-- Round-to-nearest, ties-to-even of the natural number `p` to 53 significant
binary digits (the IEEE 754 binary64 rounding of an exactly known value
`p`, away from the subnormal and overflow ranges).  The result is the rounded
number itself, a multiple of `2 ^ (bitLen p - 53)`. -/
def round53 (p : Nat) : Nat :=
  let s := bitLen 128 p - 53
  let q := p / 2 ^ s
  let r := p % 2 ^ s
  if 2 ^ s < 2 * r ∨ (2 * r = 2 ^ s ∧ q % 2 = 1) then (q + 1) * 2 ^ s else q * 2 ^ s

/-- The significand of the `float64` constant `0.69`: the constant is
`mant069 / 2 ^ 53` (bit pattern `0x3FE6147AE147AE14`). -/
def mant069 : Nat := 6214967485771284

/-- The integer part of the `float64` product `float64(n) * 0.69`, for
`0 ≤ n < 2 ^ 53` (where `float64(n)` is exact): the exact product
`n * mant069 / 2 ^ 53` is rounded to 53 significant digits, then truncated. -/
def truncMul069 (n : Nat) : Nat := round53 (n * mant069) / 2 ^ 53

/-- Go conversion `uint32(float64(bitsPerKey) * 0.69)` for `bitsPerKey ≥ 0`.
When the truncated product fits `uint32` the conversion is that number.
Otherwise the Go specification leaves the result to the implementation; that
result is the parameter `conv`, reduced to 32 bits. -/
def hashRounds (conv : Int → Nat) (bitsPerKey : Int) : Nat :=
  if bitsPerKey < 2 ^ 53 ∧ truncMul069 bitsPerKey.toNat < 2 ^ 32 then
    truncMul069 bitsPerKey.toNat
  else conv bitsPerKey % 2 ^ 32

/-! ## utils/bloom.go -/

/-- The probe increment `delta := h>>17 | h<<15` on `uint32`. -/
def rotDelta (h : Nat) : Nat := (h >>> 17) ||| ((h <<< 15) % 2 ^ 32)

/-- The probe loop of `Filter.MayContain`: `cnt` rounds remain, `h` is the
running hash. -/
def mayContainLoop (f : List Byte) (m32 delta : Nat) : Nat → Nat → Option Bool
  | 0, _ => some true
  | cnt + 1, h =>
    if m32 = 0 then none
    else
      let bitPos := h % m32
      match f[bitPos / 8]? with
      | none => none
      | some b =>
        if b.val &&& (1 <<< (bitPos % 8)) = 0 then some false
        else mayContainLoop f m32 delta cnt ((h + delta) % 2 ^ 32)

/-- `Filter.MayContain`. -/
def MayContain (f : List Byte) (h : Nat) : Option Bool :=
  if f.length < 2 then some false
  else
    let mBits : Int := 8 * ((f.length : Int) - 1)
    match f[f.length - 1]? with
    | none => none
    | some k =>
      if k.val > 30 then some true
      else mayContainLoop f (toUint32 mBits) (rotDelta h) k.val h

/-- The inner loop of `appendFilter` for one key: `cnt` rounds remain, `n` is
the running hash. -/
def appendFilterInner (m32 delta : Nat) : Nat → Nat → List Byte → Option (List Byte)
  | 0, _, filter => some filter
  | cnt + 1, n, filter =>
    if m32 = 0 then none
    else
      let bitPos := n % m32
      match filter[bitPos / 8]? with
      | none => none
      | some b =>
        appendFilterInner m32 delta cnt ((n + delta) % 2 ^ 32)
          (filter.set (bitPos / 8) (Fin.ofNat (b.val ||| (1 <<< (bitPos % 8)))))

/-- The loop `for _, n := range keys` of `appendFilter`. -/
def appendFilterLoop (m32 k : Nat) : List Nat → List Byte → Option (List Byte)
  | [], filter => some filter
  | n :: keys, filter =>
    match appendFilterInner m32 (rotDelta n) k n filter with
    | none => none
    | some filter => appendFilterLoop m32 k keys filter

/-- The clamped number of hash rounds of `appendFilter`. -/
def filterK (conv : Int → Nat) (bitsPerKey : Int) : Nat :=
  let bitsPerKey := if bitsPerKey < 0 then 0 else bitsPerKey
  let k := hashRounds conv bitsPerKey
  let k := if k < 1 then 1 else k
  if k > 30 then 30 else k

/-- The byte count `mBytes` of the bit array of `appendFilter`. -/
def filterBytes (num : Nat) (bitsPerKey : Int) : Int :=
  let bitsPerKey := if bitsPerKey < 0 then 0 else bitsPerKey
  let mBits := wrapInt64 (bitsPerKey * (num : Int))
  let mBits := if mBits < 64 then 64 else mBits
  Int.tdiv (wrapInt64 (mBits + 7)) 8

/-- `appendFilter`. -/
def appendFilter (conv : Int → Nat) (keys : List Nat) (bitsPerKey : Int) :
    Option (List Byte) :=
  let k := filterK conv bitsPerKey
  let mBytes := filterBytes keys.length bitsPerKey
  let mBits := wrapInt64 (mBytes * 8)
  if mBytes + 1 < 0 then none
  else
    let filter := List.replicate (mBytes + 1).toNat (0 : Byte)
    match appendFilterLoop (toUint32 mBits) k keys filter with
    | none => none
    | some filter =>
      if mBytes.toNat < filter.length then
        some (filter.set mBytes.toNat (Fin.ofNat (k % 2 ^ 8)))
      else none

/-- `NewFilter`. -/
def NewFilter (conv : Int → Nat) (keys : List Nat) (bitsPerKey : Int) :
    Option (List Byte) :=
  appendFilter conv keys bitsPerKey

/-- Bit `pos` of the bit array held in `f`. -/
def bitAt (f : List Byte) (pos : Nat) : Bool :=
  match f[pos / 8]? with
  | none => false
  | some b => b.val.testBit (pos % 8)

/-- All `cnt` probe positions of the double-hashing sequence that starts at
`h` are set in `f`. -/
def probesSet (f : List Byte) (m32 delta : Nat) : Nat → Nat → Prop
  | 0, _ => True
  | cnt + 1, h => bitAt f (h % m32) = true ∧ probesSet f m32 delta cnt ((h + delta) % 2 ^ 32)

/-! ## utils/skiplist.go -/

/-- The highest level of a skiplist, `defaultMaxLevel`. -/
def defaultMaxLevel : Nat := 48

/-- The loop of `randLevel`: `n` iterations remain before `i` reaches
`maxLevel`.  Modelled from the spec: `RandN` is not part of the sources; it
is the random source that "repeatedly flips", and its outcomes are taken as the
sequence `draws`, the iteration with counter `i` consuming `draws (i - 1)`. -/
def randLevelLoop (draws : Nat → Nat) : Nat → Nat → Nat
  | 0, i => i
  | n + 1, i => if draws (i - 1) % 2 = 0 then i else randLevelLoop draws n (i + 1)

/-- `SkipList.randLevel`, for the outcomes `draws` of the random source. -/
def randLevel (maxLevel : Nat) (draws : Nat → Nat) : Nat :=
  if maxLevel ≤ 1 then 1 else randLevelLoop draws (maxLevel - 1) 1

/-- The record type.  Modelled from the spec: `codec.Entry` is not part of the
sources; a record is "an opaque key (byte sequence) and an opaque
value/metadata payload". -/
structure Entry where
  Key : List Byte
  Value : List Byte
  deriving DecidableEq

/-- `Element`.  A pointer `*Element` is the address of the element in the heap
(`none` for `nil`); the `float64` score is its exact value, a natural number. -/
structure Element where
  levels : List (Option Nat)
  entry : Entry
  score : Nat
  deriving DecidableEq

/-- `SkipList`.  `heap` holds the elements allocated so far, an element's
address being its position; the lock and the random source are left out, the
outcomes of the random source being an argument of `Add`. -/
structure SkipList where
  heap : List Element
  header : Nat
  maxLevel : Nat
  length : Nat
  size : Int
  deriving DecidableEq

/-- `newElement`: the element that `Add` and `NewSkipList` place in the heap. -/
def newElement (score : Nat) (entry : Entry) (level : Nat) : Element :=
  { levels := List.replicate level none, entry := entry, score := score }

/-- `NewSkipList`. -/
def NewSkipList : SkipList :=
  { heap := [newElement 0 { Key := [], Value := [] } defaultMaxLevel]
    header := 0
    maxLevel := defaultMaxLevel
    length := 1
    size := 0 }

/-- The read `a.levels[i]` of the element at address `a`: `none` is a panic (no
element, or index out of range), `some none` is the `nil` pointer. -/
def getLevel (heap : List Element) (a i : Nat) : Option (Option Nat) :=
  match heap[a]? with
  | none => none
  | some e => e.levels[i]?

/-- The write `a.levels[i] = v` to the element at address `a`. -/
def setLevel (heap : List Element) (a i : Nat) (v : Option Nat) : Option (List Element) :=
  match heap[a]? with
  | none => none
  | some e =>
    if i < e.levels.length then some (heap.set a { e with levels := e.levels.set i v })
    else none

/-- The write `a.entry = data` to the element at address `a`. -/
def setEntry (heap : List Element) (a : Nat) (data : Entry) : Option (List Element) :=
  match heap[a]? with
  | none => none
  | some e => some (heap.set a { e with entry := data })

/-- The loop of `calcScore`: `n` iterations remain, `i` is the loop counter. -/
def calcScoreLoop (key : List Byte) : Nat → Nat → Nat → Nat
  | 0, _, hash => hash
  | n + 1, i, hash =>
    calcScoreLoop key n (i + 1) (hash ||| ((key.getD i 0).val <<< (64 - 8 - i * 8)) % 2 ^ 64)

/-- `SkipList.calcScore`: the first `min(len, 8)` bytes packed into a `uint64`,
converted to `float64` (round to nearest, ties to even). -/
def calcScore (key : List Byte) : Nat :=
  round53 (calcScoreLoop key (if key.length > 8 then 8 else key.length) 0 0)

/-- `bytes.Compare`: lexicographic comparison of byte sequences, `-1`, `0` or `1`. -/
def bytesCompare : List Byte → List Byte → Int
  | [], [] => 0
  | [], _ :: _ => -1
  | _ :: _, [] => 1
  | a :: as, b :: bs =>
    if a.val < b.val then -1 else if b.val < a.val then 1 else bytesCompare as bs

/-- `SkipList.compare`. -/
def compare (score : Nat) (key : List Byte) (next : Element) : Int :=
  if score = next.score then bytesCompare key next.entry.Key
  else if score < next.score then -1
  else 1

/-- How the inner loop of `Add` and of `Search` ends at one level: on a node
whose key compares equal, or by `break` (or `next == nil`) with `preElem` the last
node before the key. -/
inductive Walk where
  | found (next : Nat)
  | stop (preElem : Nat)
  deriving DecidableEq

/-- The inner loop `for next := preElem.levels[i]; next != nil; ...` of `Add` and of
`Search`, at level `i` from `preElem`.  `fuel` bounds the number of iterations;
`none` is a panic or the exhaustion of `fuel`. -/
def walkLevel (heap : List Element) (score : Nat) (key : List Byte) (i : Nat) :
    Nat → Nat → Option Walk
  | 0, _ => none
  | fuel + 1, preElem =>
    match getLevel heap preElem i with
    | none => none
    | some none => some (Walk.stop preElem)
    | some (some next) =>
      match heap[next]? with
      | none => none
      | some nx =>
        if compare score key nx ≤ 0 then
          if compare score key nx = 0 then some (Walk.found next)
          else some (Walk.stop preElem)
        else walkLevel heap score key i fuel next

/-- The outer loop `for i := max-1; i >= 0; i--` of `Add`, with `n = i + 1` levels
left.  The result is the node to update (`Sum.inl`) or the trail
`preElemHeaders` (`Sum.inr`); the store `preElemHeaders[i] = preElem` that matters
is the last one of the level. -/
def addDescend (heap : List Element) (score : Nat) (key : List Byte) (fuel : Nat) :
    Nat → Nat → List (Option Nat) → Option (Nat ⊕ List (Option Nat))
  | 0, _, preElemHeaders => some (Sum.inr preElemHeaders)
  | i + 1, preElem, preElemHeaders =>
    if i < preElemHeaders.length then
      match walkLevel heap score key i fuel preElem with
      | none => none
      | some (Walk.found next) => some (Sum.inl next)
      | some (Walk.stop p) => addDescend heap score key fuel i p (preElemHeaders.set i (some p))
    else none

/-- The splice loop `for i := 0; i < level; i++` of `Add`, with `n` iterations
left, for the new element at address `elem`. -/
def spliceLoop (elem : Nat) (preElemHeaders : List (Option Nat)) :
    Nat → Nat → List Element → Option (List Element)
  | 0, _, heap => some heap
  | n + 1, i, heap =>
    match preElemHeaders[i]? with
    | some (some p) =>
      match getLevel heap p i with
      | none => none
      | some nxt =>
        match setLevel heap elem i nxt with
        | none => none
        | some heap1 =>
          match setLevel heap1 p i (some elem) with
          | none => none
          | some heap2 => spliceLoop elem preElemHeaders n (i + 1) heap2
    | _ => none

/-- `SkipList.Add`, for the outcomes `draws` of the random source during the
call.  `some` is the list after a return with a `nil` error, `none` a panic. -/
def Add (list : SkipList) (draws : Nat → Nat) (data : Entry) : Option SkipList :=
  let level := randLevel list.maxLevel draws
  let score := calcScore data.Key
  match addDescend list.heap score data.Key list.heap.length list.maxLevel list.header
      (List.replicate defaultMaxLevel none) with
  | none => none
  | some (Sum.inl elem) =>
    match setEntry list.heap elem data with
    | none => none
    | some heap => some { list with heap := heap }
  | some (Sum.inr preElemHeaders) =>
    match spliceLoop list.heap.length preElemHeaders level 0
        (list.heap ++ [newElement score data level]) with
    | none => none
    | some heap =>
      some { list with heap := heap, length := if level > list.length then level else list.length }

/-- The outer loop of `Search`, with `n = i + 1` levels left. -/
def searchDescend (heap : List Element) (score : Nat) (key : List Byte) (fuel : Nat) :
    Nat → Nat → Option (Option Entry)
  | 0, _ => some none
  | i + 1, preElem =>
    match walkLevel heap score key i fuel preElem with
    | none => none
    | some (Walk.found next) =>
      match heap[next]? with
      | none => none
      | some nx => some (some nx.entry)
    | some (Walk.stop p) => searchDescend heap score key fuel i p

/-- `SkipList.Search`: `some none` is the `nil` result, `none` a panic. -/
def Search (list : SkipList) (key : List Byte) : Option (Option Entry) :=
  searchDescend list.heap (calcScore key) key list.heap.length list.length list.header

/-- `SkipList.Size`. -/
def Size (_list : SkipList) : Int := 0

/-- A sequence of `Add` calls, each with the outcomes of the random source during
the call. -/
def addAll : SkipList → List ((Nat → Nat) × Entry) → Option SkipList
  | list, [] => some list
  | list, op :: ops =>
    match Add list op.1 op.2 with
    | none => none
    | some list => addAll list ops

/-- The keys met when following the level-0 forward links from the node at
address `a`. -/
def level0From (heap : List Element) : Nat → Nat → Option (List (List Byte))
  | 0, _ => none
  | fuel + 1, a =>
    match getLevel heap a 0 with
    | none => none
    | some none => some []
    | some (some next) =>
      match heap[next]?, level0From heap fuel next with
      | some nx, some ks => some (nx.entry.Key :: ks)
      | _, _ => none

/-- The level-0 traversal of a skiplist from its header. -/
def level0Keys (list : SkipList) : Option (List (List Byte)) :=
  level0From list.heap list.heap.length list.header

/-- Strict byte-wise lexicographic order of keys. -/
def keyLt (a b : List Byte) : Prop := bytesCompare a b < 0

/-- The record of the most recent `Add` of key `k` in a sequence of added
records, oldest first. -/
def latest (k : List Byte) : List Entry → Option Entry
  | [] => none
  | d :: rest =>
    match latest k rest with
    | some r => some r
    | none => if d.Key = k then some d else none

/-! ## Definitions used in the statements and proofs about the skiplist -/

/-- The big-endian value of the `n` bytes of `key` from position `i` on, a
missing byte counting as zero. -/
def beAt (key : List Byte) : Nat → Nat → Nat
  | 0, _ => 0
  | n + 1, i => (key.getD i 0).val * 256 ^ n + beAt key n (i + 1)

/-- What `Add` never changes in an allocated element: the number of its levels,
its score, and (but for an update, which keeps the key) its entry. -/
def shape (e : Element) : Nat × Entry × Nat := (e.levels.length, e.entry, e.score)

/-- The key of the element at address `a`. -/
def keyAt (heap : List Element) (a : Nat) : List Byte :=
  match heap[a]? with
  | some e => e.entry.Key
  | none => []

/-- The number of levels of the element at address `a`. -/
def heightAt (heap : List Element) (a : Nat) : Nat :=
  match heap[a]? with
  | some e => e.levels.length
  | none => 0

/-- The element at address `a` exists and carries the score of its key. -/
def NodeOK (heap : List Element) (a : Nat) : Prop :=
  ∃ e, heap[a]? = some e ∧ e.score = calcScore e.entry.Key

/-- The addresses of the list are linked, each to the next, by their level-`i`
forward links, the last one having the `nil` link. -/
def Linked (heap : List Element) (i : Nat) : List Nat → Prop
  | [] => True
  | [a] => getLevel heap a i = some none
  | a :: b :: rest => getLevel heap a i = some (some b) ∧ Linked heap i (b :: rest)

/-- The last address of `a :: S`. -/
def lastFrom (a : Nat) : List Nat → Nat
  | [] => a
  | b :: S => lastFrom b S

/-- The nodes of `chain`, in this order, are the nodes of the skiplist after the
header `hdr`: each carries the score of its key, and at every level `i` below
`top` the forward links run from the header through the nodes of more than `i`
levels. -/
structure Layout (heap : List Element) (hdr : Nat) (chain : List Nat) (top : Nat) : Prop where
  nodes : ∀ b ∈ chain, NodeOK heap b
  links : ∀ i, i < top →
    Linked heap i (hdr :: chain.filter (fun b => decide (i < heightAt heap b)))

/-- The last node of more than `i` levels among the header and the nodes `A`. -/
def predAt (heap : List Element) (hdr : Nat) (A : List Nat) (i : Nat) : Nat :=
  lastFrom hdr (A.filter (fun b => decide (i < heightAt heap b)))

/-- The entry of the element at address `a`. -/
def entryAt (heap : List Element) (a : Nat) : Option Entry :=
  match heap[a]? with
  | some e => some e.entry
  | none => none

/-- The invariant of a skiplist whose nodes after the header are, in key order,
the addresses `chain`. -/
structure Inv (s : SkipList) (chain : List Nat) : Prop where
  hdr : s.header = 0
  maxLevel : s.maxLevel = defaultMaxLevel
  lenPos : 1 ≤ s.length
  lenLe : s.length ≤ s.maxLevel
  range : ∀ a ∈ chain, 0 < a ∧ a < s.heap.length
  cover : ∀ a, 0 < a → a < s.heap.length → a ∈ chain
  heapLen : s.heap.length = chain.length + 1
  heights : ∀ a ∈ chain, 1 ≤ heightAt s.heap a ∧ heightAt s.heap a ≤ s.length
  sorted : chain.Pairwise (fun a b => keyLt (keyAt s.heap a) (keyAt s.heap b))
  layout : Layout s.heap 0 chain s.maxLevel

/-- The loop `for ; len(b) >= 4; b = b[4:]` of `Hash` followed by its `switch` on
the one to three bytes left, on `uint32`. -/
def hashLoop : List Byte → Nat → Nat
  | b0 :: b1 :: b2 :: b3 :: rest, h =>
    let h := (h + (b0.val ||| (b1.val <<< 8) ||| (b2.val <<< 16) ||| (b3.val <<< 24))) % 2 ^ 32
    let h := (h * 0xc6a4a793) % 2 ^ 32
    let h := h ^^^ (h >>> 16)
    hashLoop rest h
  | [b0, b1, b2], h =>
    let h := (h + (b2.val <<< 16)) % 2 ^ 32
    let h := (h + (b1.val <<< 8)) % 2 ^ 32
    let h := (h + b0.val) % 2 ^ 32
    let h := (h * 0xc6a4a793) % 2 ^ 32
    h ^^^ (h >>> 24)
  | [b0, b1], h =>
    let h := (h + (b1.val <<< 8)) % 2 ^ 32
    let h := (h + b0.val) % 2 ^ 32
    let h := (h * 0xc6a4a793) % 2 ^ 32
    h ^^^ (h >>> 24)
  | [b0], h =>
    let h := (h + b0.val) % 2 ^ 32
    let h := (h * 0xc6a4a793) % 2 ^ 32
    h ^^^ (h >>> 24)
  | [], h => h

/-- `Hash`. -/
def Hash (b : List Byte) : Nat :=
  hashLoop b (0xbc9f1d34 ^^^ ((b.length % 2 ^ 32) * 0xc6a4a793) % 2 ^ 32)

/-- `Filter.MayContainKey`. -/
def MayContainKey (f : List Byte) (k : List Byte) : Option Bool :=
  MayContain f (Hash k)

/-- The addresses met when following the level-`i` forward links from the node
at address `a`. -/
def levelFrom (heap : List Element) (i : Nat) : Nat → Nat → Option (List Nat)
  | 0, _ => none
  | fuel + 1, a =>
    match getLevel heap a i with
    | none => none
    | some none => some []
    | some (some next) =>
      match levelFrom heap i fuel next with
      | some l => some (next :: l)
      | none => none

/-- The level-`i` chain of a skiplist: the nodes that the level-`i` forward links
lead through from the header. -/
def levelChain (list : SkipList) (i : Nat) : Option (List Nat) :=
  levelFrom list.heap i list.heap.length list.header

/-- The score of the element at address `a`. -/
def scoreAt (heap : List Element) (a : Nat) : Nat :=
  match heap[a]? with
  | some e => e.score
  | none => 0

/-- Strict order of the pairs (score, key): by score, ties broken by the
byte-wise order of the keys. -/
def pairLt (s1 : Nat) (k1 : List Byte) (s2 : Nat) (k2 : List Byte) : Prop :=
  s1 < s2 ∨ (s1 = s2 ∧ keyLt k1 k2)

/-! ## Theorems: rounding to `float64` -/

theorem bitLen_spec : ∀ (fuel p : Nat), p < 2 ^ fuel →
    p < 2 ^ bitLen fuel p ∧ (p ≠ 0 → 2 ^ (bitLen fuel p - 1) ≤ p) := by
  intro fuel
  induction fuel with
  | zero => intro p hp; simp at hp; subst hp; simp [bitLen]
  | succ fuel ih =>
    intro p hp
    unfold bitLen
    by_cases h0 : p = 0
    · simp [h0]
    · simp only [h0, if_false]
      have hp2 : p / 2 < 2 ^ fuel := by
        rw [pow_succ] at hp; omega
      obtain ⟨h1, h2⟩ := ih (p / 2) hp2
      constructor
      · rw [pow_succ]; omega
      · intro _
        simp only [Nat.add_sub_cancel]
        by_cases h3 : p / 2 = 0
        · have : bitLen fuel (p / 2) = 0 := by
            rw [h3]; cases fuel <;> simp [bitLen]
          rw [this]; simp; omega
        · have h4 := h2 h3
          have : bitLen fuel (p / 2) ≠ 0 := by
            intro h5; rw [h5] at h1; simp at h1; exact h3 h1
          obtain ⟨c, hc⟩ : ∃ c, bitLen fuel (p / 2) = c + 1 := ⟨bitLen fuel (p/2) - 1, by omega⟩
          rw [hc] at h4 ⊢
          simp only [Nat.add_sub_cancel] at h4
          rw [pow_succ]; omega

theorem bitLen_zero (fuel : Nat) : bitLen fuel 0 = 0 := by
  cases fuel <;> simp [bitLen]

theorem bitLen_mono (a b : Nat) (hab : a ≤ b) (hb : b < 2 ^ 128) :
    bitLen 128 a ≤ bitLen 128 b := by
  by_contra hlt
  have hlt : bitLen 128 b < bitLen 128 a := by omega
  obtain ⟨_, ha2⟩ := bitLen_spec 128 a (by omega)
  obtain ⟨hb1, _⟩ := bitLen_spec 128 b hb
  have ha0 : a ≠ 0 := by
    intro h; rw [h, bitLen_zero] at hlt; omega
  have h1 := ha2 ha0
  have h2 : 2 ^ bitLen 128 b ≤ 2 ^ (bitLen 128 a - 1) :=
    Nat.pow_le_pow_right (by decide) (by omega)
  omega

theorem round53_exact (p : Nat) (hp : p < 2 ^ 53) : round53 p = p := by
  have hL : bitLen 128 p ≤ 53 := by
    by_contra h
    obtain ⟨_, h2⟩ := bitLen_spec 128 p (by omega)
    have hp0 : p ≠ 0 := by
      intro h0; rw [h0, bitLen_zero] at h; omega
    have h3 := h2 hp0
    have h4 : 2 ^ 53 ≤ 2 ^ (bitLen 128 p - 1) := Nat.pow_le_pow_right (by decide) (by omega)
    omega
  unfold round53
  have hs : bitLen 128 p - 53 = 0 := by omega
  simp [hs, Nat.mod_one]

/-- The grid step of the rounding of `p` and the two grid points around `p`. -/
theorem round53_grid (p : Nat) (hp : p < 2 ^ 128) (h53 : 2 ^ 53 ≤ p) :
    ∃ s q r, bitLen 128 p = s + 53 ∧ p = q * 2 ^ s + r ∧ r < 2 ^ s ∧
      2 ^ 52 ≤ q ∧ q < 2 ^ 53 ∧
      round53 p = (if 2 ^ s < 2 * r ∨ (2 * r = 2 ^ s ∧ q % 2 = 1) then (q + 1) * 2 ^ s
        else q * 2 ^ s) := by
  obtain ⟨h1, h2⟩ := bitLen_spec 128 p hp
  have hp0 : p ≠ 0 := by omega
  have h3 := h2 hp0
  have hL : 54 ≤ bitLen 128 p := by
    by_contra h
    have h4 : 2 ^ bitLen 128 p ≤ 2 ^ 53 := Nat.pow_le_pow_right (by decide) (by omega)
    omega
  refine ⟨bitLen 128 p - 53, p / 2 ^ (bitLen 128 p - 53), p % 2 ^ (bitLen 128 p - 53),
    by omega, ?_, ?_, ?_, ?_, ?_⟩
  · rw [Nat.mul_comm]; exact (Nat.div_add_mod _ _).symm
  · exact Nat.mod_lt _ (Nat.pos_pow_of_pos _ (by decide))
  · rw [Nat.le_div_iff_mul_le (Nat.pos_pow_of_pos _ (by decide)), ← pow_add]
    have : 52 + (bitLen 128 p - 53) = bitLen 128 p - 1 := by omega
    rw [this]; exact h3
  · rw [Nat.div_lt_iff_lt_mul (Nat.pos_pow_of_pos _ (by decide)), ← pow_add]
    have : 53 + (bitLen 128 p - 53) = bitLen 128 p := by omega
    rw [this]; exact h1
  · rfl

theorem round53_bounds (p : Nat) (hp : p < 2 ^ 128) :
    p - p / 2 ^ 52 ≤ round53 p ∧ round53 p ≤ p + p / 2 ^ 52 := by
  by_cases h53 : p < 2 ^ 53
  · rw [round53_exact p h53]; omega
  · obtain ⟨s, q, r, _, hpq, hr, hq1, _, hround⟩ := round53_grid p hp (by omega)
    have hX : 2 ^ s ≤ p / 2 ^ 52 := by
      rw [Nat.le_div_iff_mul_le (by decide)]
      calc 2 ^ s * 2 ^ 52 = 2 ^ 52 * 2 ^ s := Nat.mul_comm _ _
        _ ≤ q * 2 ^ s := Nat.mul_le_mul_right _ hq1
        _ ≤ p := by omega
    have hup : (q + 1) * 2 ^ s = q * 2 ^ s + 2 ^ s := by ring
    rw [hround]
    split <;> omega

theorem round53_mono (a b : Nat) (hab : a ≤ b) (hb : b < 2 ^ 128) :
    round53 a ≤ round53 b := by
  by_cases hb53 : b < 2 ^ 53
  · rw [round53_exact a (by omega), round53_exact b hb53]; exact hab
  · obtain ⟨sb, qb, rb, hLb, hpb, hrb, hqb1, hqb2, hroundb⟩ := round53_grid b hb (by omega)
    have hupb : (qb + 1) * 2 ^ sb = qb * 2 ^ sb + 2 ^ sb := by ring
    have hbge : qb * 2 ^ sb ≤ round53 b := by rw [hroundb]; split <;> omega
    by_cases ha53 : a < 2 ^ 53
    · rw [round53_exact a ha53]
      have : 2 ^ 52 * 2 ^ sb ≤ qb * 2 ^ sb := Nat.mul_le_mul_right _ hqb1
      have h1 : 1 ≤ 2 ^ sb := Nat.one_le_two_pow
      have : 2 ^ 52 * 1 ≤ 2 ^ 52 * 2 ^ sb := Nat.mul_le_mul_left _ h1
      by_cases hs0 : sb = 0
      · subst hs0; simp at hrb; subst hrb
        rw [hroundb]; simp; omega
      · have h2 : 2 ^ 1 ≤ 2 ^ sb := Nat.pow_le_pow_right (by decide) (by omega)
        have : 2 ^ 52 * 2 ^ 1 ≤ 2 ^ 52 * 2 ^ sb := Nat.mul_le_mul_left _ h2
        omega
    · obtain ⟨sa, qa, ra, hLa, hpa, hra, hqa1, hqa2, hrounda⟩ :=
        round53_grid a (by omega) (by omega)
      have hupa : (qa + 1) * 2 ^ sa = qa * 2 ^ sa + 2 ^ sa := by ring
      have hale : round53 a ≤ qa * 2 ^ sa + 2 ^ sa := by rw [hrounda]; split <;> omega
      have hL := bitLen_mono a b hab hb
      by_cases hs : sa = sb
      · subst hs
        by_cases hq : qa = qb
        · subst hq
          have hr : ra ≤ rb := by omega
          rw [hrounda, hroundb]
          split <;> split <;> omega
        · have hq : qa < qb := by
            by_contra hge
            have hge : qb + 1 ≤ qa := by omega
            have := Nat.mul_le_mul_right (2 ^ sa) hge
            omega
          have := Nat.mul_le_mul_right (2 ^ sa) (show qa + 1 ≤ qb by omega)
          omega
      · have hs : sa + 1 ≤ sb := by omega
        have h1 : 2 ^ (sa + 1) ≤ 2 ^ sb := Nat.pow_le_pow_right (by decide) hs
        have h2 : (qa + 1) * 2 ^ sa ≤ 2 ^ 53 * 2 ^ sa := Nat.mul_le_mul_right _ (by omega)
        have h3 : 2 ^ 52 * 2 ^ sb ≤ qb * 2 ^ sb := Nat.mul_le_mul_right _ hqb1
        have h4 : 2 ^ 52 * 2 ^ (sa + 1) ≤ 2 ^ 52 * 2 ^ sb := Nat.mul_le_mul_left _ h1
        have h5 : 2 ^ 52 * 2 ^ (sa + 1) = 2 ^ 53 * 2 ^ sa := by ring
        omega

/-! ## Theorems: bloom filter -/

theorem and_one_shiftLeft_eq_zero (x j : Nat) :
    x &&& (1 <<< j) = 0 ↔ x.testBit j = false := by
  rw [Nat.one_shiftLeft, Nat.and_two_pow]
  cases x.testBit j <;> simp

theorem mayContainLoop_of_probesSet (f : List Byte) (m32 delta : Nat) (hm : m32 ≠ 0) :
    ∀ (cnt h : Nat), probesSet f m32 delta cnt h →
      mayContainLoop f m32 delta cnt h = some true := by
  intro cnt
  induction cnt with
  | zero => intro h _; rfl
  | succ cnt ih =>
    intro h hp
    obtain ⟨hb, hrest⟩ := hp
    unfold bitAt at hb
    unfold mayContainLoop
    simp only [hm, if_false]
    cases hf : f[h % m32 / 8]? with
    | none => simp [hf] at hb
    | some b =>
      simp only [hf] at hb
      have hne : ¬ (b.val &&& (1 <<< (h % m32 % 8)) = 0) := by
        rw [and_one_shiftLeft_eq_zero]; simp [hb]
      simp only [hne, if_false]
      exact ih _ hrest

theorem probesSet_mono (f g : List Byte) (m32 delta : Nat) (hm : m32 ≠ 0)
    (hfg : ∀ pos, pos < m32 → bitAt f pos = true → bitAt g pos = true) :
    ∀ (cnt h : Nat), probesSet f m32 delta cnt h → probesSet g m32 delta cnt h := by
  intro cnt
  induction cnt with
  | zero => intro h _; trivial
  | succ cnt ih =>
    intro h hp
    exact ⟨hfg _ (Nat.mod_lt _ (Nat.pos_of_ne_zero hm)) hp.1, ih _ hp.2⟩

theorem bitAt_set_self (f : List Byte) (pos : Nat) (b : Byte)
    (hb : f[pos / 8]? = some b) :
    bitAt (f.set (pos / 8) (Fin.ofNat (b.val ||| (1 <<< (pos % 8))))) pos = true := by
  have hlt : pos / 8 < f.length := by
    rcases List.getElem?_eq_some.1 hb with ⟨h, _⟩; exact h
  have h8 : pos % 8 < 8 := Nat.mod_lt _ (by decide)
  unfold bitAt
  rw [List.getElem?_set]
  simp only [if_true, hlt]
  show Nat.testBit ((b.val ||| (1 <<< (pos % 8))) % 2 ^ 8) (pos % 8) = true
  rw [Nat.testBit_mod_two_pow, Nat.testBit_or, Nat.one_shiftLeft, Nat.testBit_two_pow_self]
  simp [h8]

theorem bitAt_set_mono (f : List Byte) (pos q : Nat) (b : Byte)
    (hb : f[pos / 8]? = some b) (hq : bitAt f q = true) :
    bitAt (f.set (pos / 8) (Fin.ofNat (b.val ||| (1 <<< (pos % 8))))) q = true := by
  have hlt : pos / 8 < f.length := by
    rcases List.getElem?_eq_some.1 hb with ⟨h, _⟩; exact h
  have h8 : q % 8 < 8 := Nat.mod_lt _ (by decide)
  unfold bitAt at hq ⊢
  rw [List.getElem?_set]
  by_cases hidx : pos / 8 = q / 8
  · rw [← hidx, hb] at hq
    simp only [hidx, if_true]
    rw [← hidx]
    simp only [hlt, if_true]
    show Nat.testBit ((b.val ||| (1 <<< (pos % 8))) % 2 ^ 8) (q % 8) = true
    rw [Nat.testBit_mod_two_pow, Nat.testBit_or]
    simp only [] at hq
    simp [h8, hq]
  · simp only [hidx, if_false]
    exact hq

theorem appendFilterInner_spec (m32 delta : Nat) (hm : m32 ≠ 0) :
    ∀ (cnt n : Nat) (filter : List Byte), m32 ≤ 8 * filter.length →
      ∃ g, appendFilterInner m32 delta cnt n filter = some g ∧ g.length = filter.length ∧
        (∀ q, bitAt filter q = true → bitAt g q = true) ∧ probesSet g m32 delta cnt n := by
  intro cnt
  induction cnt with
  | zero =>
    intro n filter _
    exact ⟨filter, rfl, rfl, fun _ h => h, trivial⟩
  | succ cnt ih =>
    intro n filter hlen
    have hpos : n % m32 < m32 := Nat.mod_lt _ (Nat.pos_of_ne_zero hm)
    have hidx : n % m32 / 8 < filter.length := by omega
    obtain ⟨b, hb⟩ : ∃ b, filter[n % m32 / 8]? = some b :=
      ⟨_, List.getElem?_eq_getElem hidx⟩
    obtain ⟨g, hg, hglen, hgmono, hgp⟩ :=
      ih ((n + delta) % 2 ^ 32)
        (filter.set (n % m32 / 8) (Fin.ofNat (b.val ||| (1 <<< (n % m32 % 8)))))
        (by rw [List.length_set]; exact hlen)
    refine ⟨g, ?_, ?_, ?_, ?_, hgp⟩
    · unfold appendFilterInner
      simp only [hm, if_false, hb]
      exact hg
    · rw [hglen, List.length_set]
    · intro q hq
      exact hgmono q (bitAt_set_mono filter _ q b hb hq)
    · exact hgmono _ (bitAt_set_self filter _ b hb)

theorem appendFilterLoop_spec (m32 k : Nat) (hm : m32 ≠ 0) :
    ∀ (keys : List Nat) (filter : List Byte), m32 ≤ 8 * filter.length →
      ∃ g, appendFilterLoop m32 k keys filter = some g ∧ g.length = filter.length ∧
        (∀ q, bitAt filter q = true → bitAt g q = true) ∧
        ∀ n ∈ keys, probesSet g m32 (rotDelta n) k n := by
  intro keys
  induction keys with
  | nil =>
    intro filter _
    exact ⟨filter, rfl, rfl, fun _ h => h, fun n hn => by simp at hn⟩
  | cons n keys ih =>
    intro filter hlen
    obtain ⟨g1, hg1, hlen1, hmono1, hp1⟩ :=
      appendFilterInner_spec m32 (rotDelta n) hm k n filter hlen
    obtain ⟨g, hg, hglen, hgmono, hgp⟩ := ih g1 (by rw [hlen1]; exact hlen)
    refine ⟨g, ?_, by rw [hglen, hlen1], fun q hq => hgmono q (hmono1 q hq), ?_⟩
    · unfold appendFilterLoop
      simp only [hg1]
      exact hg
    · intro x hx
      rcases List.mem_cons.1 hx with rfl | hx
      · exact probesSet_mono g1 g m32 _ hm (fun q _ hq => hgmono q hq) k x hp1
      · exact hgp x hx

theorem wrapInt64_of_range (x : Int) (h0 : -2 ^ 63 ≤ x) (h1 : x < 2 ^ 63) :
    wrapInt64 x = x := by
  unfold wrapInt64; omega

theorem wrapInt64_range (x : Int) : -2 ^ 63 ≤ wrapInt64 x ∧ wrapInt64 x < 2 ^ 63 := by
  unfold wrapInt64; omega

theorem tdiv_eight_of_neg (x : Int) (h : x ≤ -8) : Int.tdiv x 8 < 0 := by
  have h2 : Int.tdiv (-x) 8 = (-x) / 8 := Int.tdiv_eq_ediv (by omega) (by omega)
  have h3 : x = - (-x) := by omega
  rw [h3, Int.neg_tdiv, h2]; omega

theorem filterBytes_ge (num : Nat) (bitsPerKey : Int)
    (h : 0 ≤ filterBytes num bitsPerKey) : 8 ≤ filterBytes num bitsPerKey := by
  unfold filterBytes at h ⊢
  simp only [] at h ⊢
  have hr := wrapInt64_range ((if bitsPerKey < 0 then 0 else bitsPerKey) * (num : Int))
  generalize wrapInt64 ((if bitsPerKey < 0 then 0 else bitsPerKey) * (num : Int)) = m0 at h hr ⊢
  generalize hm : (if m0 < 64 then (64 : Int) else m0) = m at h ⊢
  have hm64 : 64 ≤ m ∧ m < 2 ^ 63 := by rw [← hm]; split <;> omega
  have hw := wrapInt64_range (m + 7)
  by_cases hneg : wrapInt64 (m + 7) < 0
  · have hlt : wrapInt64 (m + 7) ≤ -8 := by
      unfold wrapInt64 at hneg ⊢; omega
    have := tdiv_eight_of_neg _ hlt
    omega
  · have hge : 71 ≤ wrapInt64 (m + 7) := by
      unfold wrapInt64 at hneg ⊢; omega
    rw [Int.tdiv_eq_ediv (by omega) (by omega)]
    omega

theorem filterK_bounds (conv : Int → Nat) (bitsPerKey : Int) :
    1 ≤ filterK conv bitsPerKey ∧ filterK conv bitsPerKey ≤ 30 := by
  unfold filterK
  simp only []
  generalize hashRounds conv (if bitsPerKey < 0 then 0 else bitsPerKey) = k0
  split_ifs <;> omega

theorem bitAt_set_other (f : List Byte) (i q : Nat) (b : Byte) (hq : q < 8 * i) :
    bitAt (f.set i b) q = bitAt f q := by
  unfold bitAt
  have hne : ¬ (i = q / 8) := by omega
  rw [List.getElem?_set]
  simp only [hne, if_false]

/-- The successful run of `appendFilter` on a bit array of fewer than `2 ^ 32`
bits: the result is the bit array left by the key loop, followed by the byte
`k`. -/
theorem appendFilter_eq (conv : Int → Nat) (keys : List Nat) (bitsPerKey : Int)
    (h0 : 0 ≤ filterBytes keys.length bitsPerKey)
    (hsize : filterBytes keys.length bitsPerKey * 8 < 2 ^ 32) :
    ∃ g, appendFilterLoop ((filterBytes keys.length bitsPerKey).toNat * 8)
          (filterK conv bitsPerKey) keys
          (List.replicate ((filterBytes keys.length bitsPerKey).toNat + 1) (0 : Byte)) = some g ∧
      g.length = (filterBytes keys.length bitsPerKey).toNat + 1 ∧
      (∀ n ∈ keys, probesSet g ((filterBytes keys.length bitsPerKey).toNat * 8)
          (rotDelta n) (filterK conv bitsPerKey) n) ∧
      appendFilter conv keys bitsPerKey =
        some (g.set (filterBytes keys.length bitsPerKey).toNat
          (Fin.ofNat (filterK conv bitsPerKey % 2 ^ 8))) := by
  have h8 := filterBytes_ge _ _ h0
  generalize hmB : filterBytes keys.length bitsPerKey = mB at *
  obtain ⟨M, rfl⟩ : ∃ M : Nat, mB = (M : Int) := ⟨mB.toNat, by omega⟩
  have hM8 : 8 ≤ M := by omega
  have hMlt : M * 8 < 2 ^ 32 := by omega
  simp only [Int.toNat_ofNat]
  obtain ⟨g, hg, hglen, _, hgp⟩ :=
    appendFilterLoop_spec (M * 8) (filterK conv bitsPerKey) (by omega) keys
      (List.replicate (M + 1) (0 : Byte)) (by rw [List.length_replicate]; omega)
  rw [List.length_replicate] at hglen
  refine ⟨g, hg, hglen, hgp, ?_⟩
  unfold appendFilter
  simp only [hmB]
  have hu : toUint32 (wrapInt64 ((M : Int) * 8)) = M * 8 := by
    rw [wrapInt64_of_range _ (by omega) (by omega)]
    unfold toUint32
    omega
  have hnn : ¬ ((M : Int) + 1 < 0) := by omega
  have htn : ((M : Int) + 1).toNat = M + 1 := by omega
  simp only [hnn, if_false, hu, htn, Int.toNat_ofNat, hg, hglen]
  simp

/-- C1. No false negatives: when the bit array of `NewFilter(keys, bitsPerKey)`
has fewer than `2 ^ 32` bits, the filter is built and `MayContain` answers
`true` for every hash `h` that occurs in `keys`. -/
theorem newFilter_no_false_negative (conv : Int → Nat) (keys : List Nat)
    (bitsPerKey : Int) (h : Nat)
    (h0 : 0 ≤ filterBytes keys.length bitsPerKey)
    (hsize : filterBytes keys.length bitsPerKey * 8 < 2 ^ 32)
    (hmem : h ∈ keys) :
    ∃ f, NewFilter conv keys bitsPerKey = some f ∧ MayContain f h = some true := by
  obtain ⟨g, _, hglen, hgp, hf⟩ := appendFilter_eq conv keys bitsPerKey h0 hsize
  have h8 := filterBytes_ge _ _ h0
  have hk := filterK_bounds conv bitsPerKey
  generalize hmB : filterBytes keys.length bitsPerKey = mB at *
  obtain ⟨M, rfl⟩ : ∃ M : Nat, mB = (M : Int) := ⟨mB.toNat, by omega⟩
  simp only [Int.toNat_ofNat] at hglen hgp hf
  generalize hk0 : filterK conv bitsPerKey = k at *
  refine ⟨_, hf, ?_⟩
  have hM8 : 8 ≤ M := by omega
  have hlen : (g.set M (Fin.ofNat (k % 2 ^ 8) : Byte)).length = M + 1 := by
    rw [List.length_set, hglen]
  have hlast : (g.set M (Fin.ofNat (k % 2 ^ 8) : Byte))[M]? =
      some (Fin.ofNat (k % 2 ^ 8) : Byte) := by
    rw [List.getElem?_set]; simp [hglen]
  have hkval : ((Fin.ofNat (k % 2 ^ 8) : Byte)).val = k := by
    show k % 2 ^ 8 % 256 = k
    omega
  have hu : toUint32 (8 * (((M + 1 : Nat) : Int) - 1)) = M * 8 := by
    unfold toUint32; omega
  unfold MayContain
  have hn2 : ¬ (M + 1 < 2) := by omega
  simp only [hlen, hn2, if_false, Nat.add_sub_cancel, hlast, hkval, hu]
  have hn30 : ¬ (k > 30) := by omega
  simp only [hn30, if_false]
  apply mayContainLoop_of_probesSet _ _ _ (by omega)
  apply probesSet_mono g _ (M * 8) _ (by omega) _ _ _ (hgp h hmem)
  intro pos hpos hb
  rw [bitAt_set_other _ _ _ _ (by omega)]
  exact hb

/-- C6. Fail-open sentinel: a filter of at least two bytes whose last byte is
greater than 30 answers `true` for every hash, whatever its bit array holds. -/
theorem mayContain_sentinel (f : List Byte) (k : Byte) (h : Nat)
    (hlen : 2 ≤ f.length) (hlast : f.getLast? = some k) (hk : 30 < k.val) :
    MayContain f h = some true := by
  unfold MayContain
  have hn2 : ¬ (f.length < 2) := by omega
  rw [List.getLast?_eq_getElem?] at hlast
  simp only [hn2, if_false, hlast, gt_iff_lt, hk, if_true]

/-- C7. Degenerate filter: a filter of length 0 or 1 answers `false` for every
hash and does not fail, whatever its byte is. -/
theorem mayContain_degenerate (f : List Byte) (h : Nat) (hlen : f.length < 2) :
    MayContain f h = some false := by
  unfold MayContain
  simp only [hlen, if_true]

theorem appendFilterInner_length (m32 delta : Nat) :
    ∀ (cnt n : Nat) (filter g : List Byte),
      appendFilterInner m32 delta cnt n filter = some g → g.length = filter.length := by
  intro cnt
  induction cnt with
  | zero =>
    intro n filter g hg
    simp only [appendFilterInner, Option.some.injEq] at hg
    rw [hg]
  | succ cnt ih =>
    intro n filter g hg
    unfold appendFilterInner at hg
    split at hg
    · exact absurd hg (by simp)
    · simp only [] at hg
      split at hg
      · exact absurd hg (by simp)
      · rw [ih _ _ _ hg, List.length_set]

theorem appendFilterLoop_length (m32 k : Nat) :
    ∀ (keys : List Nat) (filter g : List Byte),
      appendFilterLoop m32 k keys filter = some g → g.length = filter.length := by
  intro keys
  induction keys with
  | nil =>
    intro filter g hg
    simp only [appendFilterLoop, Option.some.injEq] at hg
    rw [hg]
  | cons n keys ih =>
    intro filter g hg
    unfold appendFilterLoop at hg
    split at hg
    · exact absurd hg (by simp)
    · rename_i g1 hg1
      rw [ih _ _ hg, appendFilterInner_length _ _ _ _ _ _ hg1]

/-- Every filter returned by `appendFilter` ends with the byte `k`. -/
theorem appendFilter_getLast (conv : Int → Nat) (keys : List Nat) (bitsPerKey : Int)
    (f : List Byte) (hf : appendFilter conv keys bitsPerKey = some f) :
    f.getLast? = some (Fin.ofNat (filterK conv bitsPerKey % 2 ^ 8)) := by
  unfold appendFilter at hf
  simp only [] at hf
  split at hf
  · exact absurd hf (by simp)
  · split at hf
    · exact absurd hf (by simp)
    · rename_i g hg
      have hlen := appendFilterLoop_length _ _ _ _ _ hg
      rw [List.length_replicate] at hlen
      split at hf
      · rename_i hlt
        simp only [Option.some.injEq] at hf
        rw [← hf, List.getLast?_eq_getElem?, List.length_set, List.getElem?_set]
        have hidx : (filterBytes keys.length bitsPerKey).toNat = g.length - 1 := by omega
        simp only [hidx, if_true]
        have hpos : g.length - 1 < g.length := by omega
        simp only [hpos, if_true]
      · exact absurd hf (by simp)

set_option maxRecDepth 100000 in
theorem truncMul069_small : ∀ n : Fin 44, truncMul069 n.val = n.val * 69 / 100 := by
  decide

theorem truncMul069_large (n : Nat) (h44 : 44 ≤ n) (h : n < 2 ^ 32) :
    30 ≤ truncMul069 n ∧ truncMul069 n < 2 ^ 32 := by
  unfold truncMul069
  have hm : mant069 = 6214967485771284 := rfl
  have hb := round53_bounds (n * mant069) (by rw [hm]; omega)
  rw [hm] at hb ⊢
  omega

theorem filterK_eq (conv : Int → Nat) (bitsPerKey : Int) (hb : bitsPerKey < 2 ^ 32) :
    (filterK conv bitsPerKey : Int) = max 1 (min 30 (bitsPerKey * 69 / 100)) := by
  unfold filterK hashRounds
  simp only []
  by_cases hneg : bitsPerKey < 0
  · have h0 : truncMul069 (0 : Int).toNat = 0 := by decide
    simp only [hneg, if_true, h0]
    simp
    omega
  · simp only [hneg, if_false]
    obtain ⟨n, rfl⟩ : ∃ n : Nat, bitsPerKey = (n : Int) := ⟨bitsPerKey.toNat, by omega⟩
    simp only [Int.toNat_ofNat]
    have h53 : (n : Int) < 2 ^ 53 := by omega
    by_cases h44 : n < 44
    · have hs := truncMul069_small ⟨n, h44⟩
      simp only [] at hs
      rw [hs]
      have hlt : n * 69 / 100 < 2 ^ 32 := by omega
      simp only [h53, hlt, and_self, if_true]
      push_cast
      split_ifs <;> omega
    · obtain ⟨h1, h2⟩ := truncMul069_large n (by omega) (by omega)
      simp only [h53, h2, and_self, if_true]
      split_ifs <;> omega

theorem newFilter_no_false_negative_witness :
    0 ≤ filterBytes [1, 2, 3].length 10 ∧ filterBytes [1, 2, 3].length 10 * 8 < 2 ^ 32 ∧
      2 ∈ [1, 2, 3] ∧
      ∃ f, NewFilter (fun _ => 0) [1, 2, 3] 10 = some f ∧ MayContain f 2 = some true :=
  ⟨by decide, by decide, by decide,
    newFilter_no_false_negative (fun _ => 0) [1, 2, 3] 10 2 (by decide) (by decide) (by decide)⟩

theorem mayContain_sentinel_witness :
    2 ≤ [(0 : Byte), 31].length ∧ [(0 : Byte), 31].getLast? = some 31 ∧
      30 < (31 : Byte).val ∧ MayContain [0, 31] 12345 = some true :=
  ⟨by decide, by decide, by decide,
    mayContain_sentinel [0, 31] 31 12345 (by decide) (by decide) (by decide)⟩

theorem mayContain_degenerate_witness :
    [(255 : Byte)].length < 2 ∧ MayContain [255] 7 = some false :=
  ⟨by decide, mayContain_degenerate [255] 7 (by decide)⟩

/-- C8, as stated, fails: with `bitsPerKey = 10` the last byte of the filter is
`6` (the product `6.9` is truncated), not the rounded value `7`. -/
theorem newFilter_last_byte_not_rounded :
    ∃ f, NewFilter (fun _ => 0) [1, 2, 3] 10 = some f ∧ f.getLast? = some 6 ∧
      f.getLast? ≠ some 7 :=
  ⟨[14, 0, 0, 0, 0, 0, 0, 0, 6], by decide, by decide, by decide⟩

/-- C8, amended. For `bitsPerKey < 2 ^ 32`, every filter returned by
`NewFilter(keys, bitsPerKey)` ends with the byte
`k = clamp(floor(bitsPerKey * 0.69), 1, 30)`, the product being truncated; and
`NewFilter` does return a filter whenever the bit array has fewer than `2 ^ 32`
bits. -/
theorem newFilter_last_byte (conv : Int → Nat) (keys : List Nat) (bitsPerKey : Int)
    (hb : bitsPerKey < 2 ^ 32) :
    (∀ f, NewFilter conv keys bitsPerKey = some f →
      ∃ kb : Byte, f.getLast? = some kb ∧
        (kb.val : Int) = max 1 (min 30 (bitsPerKey * 69 / 100))) ∧
    (0 ≤ filterBytes keys.length bitsPerKey →
      filterBytes keys.length bitsPerKey * 8 < 2 ^ 32 →
      ∃ f, NewFilter conv keys bitsPerKey = some f) := by
  constructor
  · intro f hf
    refine ⟨_, appendFilter_getLast conv keys bitsPerKey f hf, ?_⟩
    have hk := filterK_bounds conv bitsPerKey
    have hval : ((Fin.ofNat (filterK conv bitsPerKey % 2 ^ 8) : Byte)).val
        = filterK conv bitsPerKey := by
      show filterK conv bitsPerKey % 2 ^ 8 % 256 = filterK conv bitsPerKey
      omega
    rw [hval]
    exact filterK_eq conv bitsPerKey hb
  · intro h0 hsize
    obtain ⟨g, _, _, _, hf⟩ := appendFilter_eq conv keys bitsPerKey h0 hsize
    exact ⟨_, hf⟩

theorem newFilter_last_byte_witness :
    (10 : Int) < 2 ^ 32 ∧
      ∃ kb : Byte, [(3 : Byte), 0, 0, 0, 0, 0, 0, 0, 6].getLast? = some kb ∧
        (kb.val : Int) = max 1 (min 30 ((10 : Int) * 69 / 100)) :=
  ⟨by decide,
    (newFilter_last_byte (fun _ => 0) [0, 1] 10 (by decide)).1 [3, 0, 0, 0, 0, 0, 0, 0, 6]
      (by decide)⟩

theorem filterBytes_eq (num : Nat) (bitsPerKey : Int)
    (hsize : (max 64 (bitsPerKey * (num : Int)) + 7) / 8 * 8 < 2 ^ 32) :
    filterBytes num bitsPerKey = (max 64 (bitsPerKey * (num : Int)) + 7) / 8 := by
  unfold filterBytes
  simp only []
  by_cases hneg : bitsPerKey < 0
  · have hprod : bitsPerKey * (num : Int) ≤ 0 :=
      Int.mul_nonpos_of_nonpos_of_nonneg (by omega) (by omega)
    have hmax : max 64 (bitsPerKey * (num : Int)) = 64 := by omega
    simp only [hneg, if_true, Int.zero_mul, hmax]
    decide
  · simp only [hneg, if_false]
    have hm0 : 0 ≤ bitsPerKey * (num : Int) := Int.mul_nonneg (by omega) (by omega)
    generalize bitsPerKey * (num : Int) = m at hsize hm0 ⊢
    have hw : wrapInt64 m = m := wrapInt64_of_range m (by omega) (by omega)
    rw [hw]
    have hmax : (if m < 64 then (64 : Int) else m) = max 64 m := by
      split <;> omega
    rw [hmax]
    have hw2 : wrapInt64 (max 64 m + 7) = max 64 m + 7 :=
      wrapInt64_of_range _ (by omega) (by omega)
    rw [hw2, Int.tdiv_eq_ediv (by omega) (by omega)]

/-- C9, as stated, fails: for an empty key list and `bitsPerKey = 10` the filter
has 9 bytes, but its `k` byte is `6`, not `1`. -/
theorem newFilter_empty_keys_k_not_one :
    ∃ f, NewFilter (fun _ => 0) [] 10 = some f ∧ f.length = 9 ∧ f.getLast? = some 6 ∧
      f.getLast? ≠ some 1 :=
  ⟨[0, 0, 0, 0, 0, 0, 0, 0, 6], by decide, by decide, by decide, by decide⟩

/-- C9, amended. When the bit array has fewer than `2 ^ 32` bits,
`NewFilter(keys, bitsPerKey)` returns a filter of exactly `mBytes + 1` bytes,
`mBytes = ceil(max(64, bitsPerKey * len(keys)) / 8)`; for `bitsPerKey ≤ 0` or an
empty key list it has 9 bytes, and for `bitsPerKey ≤ 0` its `k` byte is `1`. -/
theorem newFilter_length (conv : Int → Nat) (keys : List Nat) (bitsPerKey : Int)
    (hsize : (max 64 (bitsPerKey * (keys.length : Int)) + 7) / 8 * 8 < 2 ^ 32) :
    ∃ f, NewFilter conv keys bitsPerKey = some f ∧
      (f.length : Int) = (max 64 (bitsPerKey * (keys.length : Int)) + 7) / 8 + 1 ∧
      ((bitsPerKey ≤ 0 ∨ keys = []) → f.length = 9) ∧
      (bitsPerKey ≤ 0 → f.getLast? = some 1) := by
  have hfb := filterBytes_eq keys.length bitsPerKey hsize
  have h0 : 0 ≤ filterBytes keys.length bitsPerKey := by rw [hfb]; omega
  have hlt : filterBytes keys.length bitsPerKey * 8 < 2 ^ 32 := by rw [hfb]; exact hsize
  obtain ⟨g, _, hglen, _, hf⟩ := appendFilter_eq conv keys bitsPerKey h0 hlt
  have hlen : ((g.set (filterBytes keys.length bitsPerKey).toNat
      (Fin.ofNat (filterK conv bitsPerKey % 2 ^ 8) : Byte)).length : Int)
      = (max 64 (bitsPerKey * (keys.length : Int)) + 7) / 8 + 1 := by
    rw [List.length_set, hglen, ← hfb]
    omega
  refine ⟨_, hf, hlen, ?_, ?_⟩
  · intro hdeg
    have hprod : bitsPerKey * (keys.length : Int) ≤ 0 := by
      rcases hdeg with hle | hnil
      · exact Int.mul_nonpos_of_nonpos_of_nonneg hle (by omega)
      · rw [hnil]; simp
    have hmax : max 64 (bitsPerKey * (keys.length : Int)) = 64 := by omega
    rw [hmax] at hlen
    omega
  · intro hle
    rw [appendFilter_getLast conv keys bitsPerKey _ hf]
    have hk := filterK_eq conv bitsPerKey (by omega)
    have hk1 : filterK conv bitsPerKey = 1 := by omega
    rw [hk1]
    rfl

theorem newFilter_length_witness :
    (max 64 ((10 : Int) * (([1, 2, 3] : List Nat).length : Int)) + 7) / 8 * 8 < 2 ^ 32 ∧
    ∃ f, NewFilter (fun _ => 0) [1, 2, 3] 10 = some f ∧
      (f.length : Int) = (max 64 ((10 : Int) * (([1, 2, 3] : List Nat).length : Int)) + 7) / 8 + 1 ∧
      (((10 : Int) ≤ 0 ∨ ([1, 2, 3] : List Nat) = []) → f.length = 9) ∧
      ((10 : Int) ≤ 0 → f.getLast? = some 1) :=
  ⟨by decide, newFilter_length (fun _ => 0) [1, 2, 3] 10 (by decide)⟩

theorem appendFilter_eq_none (conv : Int → Nat) (keys : List Nat) (bitsPerKey : Int)
    (h : ∀ filter : List Byte,
      appendFilterLoop (toUint32 (wrapInt64 (filterBytes keys.length bitsPerKey * 8)))
        (filterK conv bitsPerKey) keys filter = none) :
    appendFilter conv keys bitsPerKey = none := by
  unfold appendFilter
  simp only []
  split
  · rfl
  · rw [h]

/-- With one key and `bitsPerKey = 2 ^ 32` the bit array has `2 ^ 32` bits, its
size converts to the `uint32` zero, and the modulus of the first probe
panics. -/
theorem newFilter_zero_modulus (conv : Int → Nat) (n : Nat) :
    NewFilter conv [n] (2 ^ 32) = none := by
  have hk := filterK_bounds conv (2 ^ 32)
  obtain ⟨k, hk'⟩ : ∃ k, filterK conv (2 ^ 32) = k + 1 :=
    ⟨filterK conv (2 ^ 32) - 1, by omega⟩
  have hB : filterBytes 1 (2 ^ 32) = 2 ^ 29 := by decide
  have hm : toUint32 (wrapInt64 (2 ^ 29 * 8)) = 0 := by decide
  apply appendFilter_eq_none
  intro filter
  rw [List.length_singleton, hB, hm, hk']
  simp [appendFilterLoop, appendFilterInner]

/-! ## Theorems: skiplist levels -/

theorem randLevelLoop_spec (draws : Nat → Nat) :
    ∀ (n i : Nat), 1 ≤ i →
      i ≤ randLevelLoop draws n i ∧ randLevelLoop draws n i ≤ i + n ∧
      (randLevelLoop draws n i = i + n ↔
        ∀ j, i - 1 ≤ j → j < i - 1 + n → draws j % 2 = 1) := by
  intro n
  induction n with
  | zero =>
    intro i _
    refine ⟨Nat.le_refl _, Nat.le_refl _, ?_⟩
    simp only [randLevelLoop, Nat.add_zero, true_iff]
    intro j h1 h2
    omega
  | succ n ih =>
    intro i hi
    unfold randLevelLoop
    by_cases hd : draws (i - 1) % 2 = 0
    · simp only [hd, if_true]
      refine ⟨Nat.le_refl _, by omega, ?_⟩
      constructor
      · intro h; omega
      · intro h
        have := h (i - 1) (Nat.le_refl _) (by omega)
        omega
    · simp only [hd, if_false]
      obtain ⟨h1, h2, h3⟩ := ih (i + 1) (by omega)
      refine ⟨by omega, by omega, ?_⟩
      rw [show i + (n + 1) = i + 1 + n by omega, h3]
      constructor
      · intro h j hj1 hj2
        by_cases hj : j = i - 1
        · rw [hj]; omega
        · exact h j (by omega) (by omega)
      · intro h j hj1 hj2
        exact h j (by omega) (by omega)

theorem randLevel_range (maxLevel : Nat) (draws : Nat → Nat) (hmax : 1 ≤ maxLevel) :
    1 ≤ randLevel maxLevel draws ∧ randLevel maxLevel draws ≤ maxLevel := by
  unfold randLevel
  by_cases h1 : maxLevel ≤ 1
  · simp only [h1, if_true]; omega
  · simp only [h1, if_false]
    obtain ⟨h2, h3, _⟩ := randLevelLoop_spec draws (maxLevel - 1) 1 (Nat.le_refl _)
    omega

/-- C10. Level bound: for `maxLevel ≥ 1` and every sequence of outcomes of the
random source, `randLevel` returns a level `L` with `1 ≤ L ≤ maxLevel`, and
`L = maxLevel` exactly when `maxLevel ≤ 1` or the first `maxLevel - 1` draws are
all odd. -/
theorem randLevel_bound (maxLevel : Nat) (draws : Nat → Nat) (hmax : 1 ≤ maxLevel) :
    1 ≤ randLevel maxLevel draws ∧ randLevel maxLevel draws ≤ maxLevel ∧
    (randLevel maxLevel draws = maxLevel ↔
      (maxLevel ≤ 1 ∨ ∀ j, j < maxLevel - 1 → draws j % 2 = 1)) := by
  unfold randLevel
  by_cases h1 : maxLevel ≤ 1
  · simp only [h1, if_true, true_or, iff_true]
    omega
  · simp only [h1, if_false, false_or]
    obtain ⟨h2, h3, h4⟩ := randLevelLoop_spec draws (maxLevel - 1) 1 (Nat.le_refl _)
    refine ⟨h2, by omega, ?_⟩
    have hm : 1 + (maxLevel - 1) = maxLevel := by omega
    rw [hm] at h4
    rw [h4]
    simp only [Nat.sub_self, Nat.zero_le, true_implies, Nat.zero_add]

theorem randLevel_bound_witness :
    1 ≤ defaultMaxLevel ∧
    1 ≤ randLevel defaultMaxLevel (fun j => if j < 2 then 1 else 0) ∧
    randLevel defaultMaxLevel (fun j => if j < 2 then 1 else 0) ≤ defaultMaxLevel ∧
    (randLevel defaultMaxLevel (fun j => if j < 2 then 1 else 0) = defaultMaxLevel ↔
      (defaultMaxLevel ≤ 1 ∨
        ∀ j, j < defaultMaxLevel - 1 → (fun j => if j < 2 then 1 else 0) j % 2 = 1)) :=
  ⟨by decide, randLevel_bound defaultMaxLevel (fun j => if j < 2 then 1 else 0) (by decide)⟩

/-! ## Theorems: key order and score -/

theorem bytesCompare_cases (a b : List Byte) :
    bytesCompare a b = -1 ∨ bytesCompare a b = 0 ∨ bytesCompare a b = 1 := by
  induction a generalizing b with
  | nil => cases b <;> simp [bytesCompare]
  | cons x xs ih =>
    cases b with
    | nil => simp [bytesCompare]
    | cons y ys =>
      unfold bytesCompare
      split_ifs
      · simp
      · simp
      · exact ih ys

theorem bytesCompare_eq_zero (a b : List Byte) : bytesCompare a b = 0 ↔ a = b := by
  induction a generalizing b with
  | nil => cases b <;> simp [bytesCompare]
  | cons x xs ih =>
    cases b with
    | nil => simp [bytesCompare]
    | cons y ys =>
      unfold bytesCompare
      split_ifs with h1 h2
      · simp; intro h; rw [h] at h1; omega
      · simp; intro h; rw [h] at h2; omega
      · have hxy : x = y := Fin.ext (by omega)
        simp [ih ys, hxy]

theorem bytesCompare_swap (a b : List Byte) : bytesCompare b a = - bytesCompare a b := by
  induction a generalizing b with
  | nil => cases b <;> simp [bytesCompare]
  | cons x xs ih =>
    cases b with
    | nil => simp [bytesCompare]
    | cons y ys =>
      unfold bytesCompare
      split_ifs <;> first | omega | simp | exact ih ys

theorem keyLt_irrefl (a : List Byte) : ¬ keyLt a a := by
  unfold keyLt
  rw [(bytesCompare_eq_zero a a).2 rfl]
  decide

theorem keyLt_asymm (a b : List Byte) (h : keyLt a b) : ¬ keyLt b a := by
  unfold keyLt at *
  rw [bytesCompare_swap a b]
  omega

theorem keyLt_trans (a b c : List Byte) (hab : keyLt a b) (hbc : keyLt b c) : keyLt a c := by
  unfold keyLt at *
  induction a generalizing b c with
  | nil =>
    cases c with
    | nil => cases b <;> simp [bytesCompare] at hab hbc
    | cons z zs => simp [bytesCompare]
  | cons x xs ih =>
    cases b with
    | nil => simp [bytesCompare] at hab
    | cons y ys =>
      cases c with
      | nil => simp [bytesCompare] at hbc
      | cons z zs =>
        unfold bytesCompare at hab hbc ⊢
        split_ifs at hab hbc ⊢ <;> first | omega | exact ih ys zs hab hbc

theorem keyLt_ne (a b : List Byte) (h : keyLt a b) : a ≠ b := by
  intro hab
  rw [hab] at h
  exact keyLt_irrefl b h

theorem keyLt_total (a b : List Byte) : keyLt a b ∨ a = b ∨ keyLt b a := by
  unfold keyLt
  rw [bytesCompare_swap a b]
  rcases bytesCompare_cases a b with h | h | h
  · left; omega
  · right; left; exact (bytesCompare_eq_zero a b).1 h
  · right; right; omega

theorem beAt_lt (key : List Byte) : ∀ (n i : Nat), beAt key n i < 256 ^ n := by
  intro n
  induction n with
  | zero => intro i; simp [beAt]
  | succ n ih =>
    intro i
    unfold beAt
    have h1 := ih (i + 1)
    have h2 : (key.getD i 0).val < 256 := (key.getD i 0).isLt
    have h3 : (key.getD i 0).val * 256 ^ n ≤ 255 * 256 ^ n := Nat.mul_le_mul_right _ (by omega)
    rw [pow_succ]
    omega

theorem beAt_cons (x : Byte) (xs : List Byte) :
    ∀ (n i : Nat), beAt (x :: xs) n (i + 1) = beAt xs n i := by
  intro n
  induction n with
  | zero => intro i; rfl
  | succ n ih =>
    intro i
    unfold beAt
    rw [ih (i + 1)]
    simp

theorem beAt_nil : ∀ (n i : Nat), beAt [] n i = 0 := by
  intro n
  induction n with
  | zero => intro i; rfl
  | succ n ih => intro i; unfold beAt; rw [ih]; simp

theorem beAt_mono (n : Nat) : ∀ (a b : List Byte), keyLt a b → beAt a n 0 ≤ beAt b n 0 := by
  induction n with
  | zero => intro a b _; simp [beAt]
  | succ n ih =>
    intro a b hab
    cases a with
    | nil => rw [beAt_nil]; exact Nat.zero_le _
    | cons x xs =>
      cases b with
      | nil => simp [keyLt, bytesCompare] at hab
      | cons y ys =>
        unfold beAt
        rw [beAt_cons, beAt_cons]
        simp only [List.getD_cons_zero]
        unfold keyLt bytesCompare at hab
        split_ifs at hab with h1 h2
        · have hx := beAt_lt xs n 0
          have h3 : (x.val + 1) * 256 ^ n ≤ y.val * 256 ^ n :=
            Nat.mul_le_mul_right _ (by omega)
          have h4 : (x.val + 1) * 256 ^ n = x.val * 256 ^ n + 256 ^ n := by ring
          omega
        · omega
        · have hxy : x = y := Fin.ext (by omega)
          have := ih xs ys hab
          rw [hxy]
          omega

theorem calcScoreLoop_closed (key : List Byte) :
    ∀ (n i P : Nat), i + n ≤ 8 →
      calcScoreLoop key n i (2 ^ (64 - 8 * i) * P) =
        2 ^ (64 - 8 * (i + n)) * (P * 256 ^ n + beAt key n i) := by
  intro n
  induction n with
  | zero => intro i P _; simp [calcScoreLoop, beAt]
  | succ n ih =>
    intro i P hin
    unfold calcScoreLoop beAt
    have hy : (key.getD i 0).val < 256 := (key.getD i 0).isLt
    generalize (key.getD i 0).val = y at hy
    have hs : 64 - 8 - i * 8 = 64 - 8 * (i + 1) := by omega
    have hpow : (2 : Nat) ^ (64 - 8 * i) = 2 ^ (64 - 8 * (i + 1)) * 256 := by
      rw [show (256 : Nat) = 2 ^ 8 by norm_num, ← pow_add]
      congr 1; omega
    have hylt : y * 2 ^ (64 - 8 * (i + 1)) < 2 ^ (64 - 8 * i) := by
      rw [hpow, Nat.mul_comm]
      exact Nat.mul_lt_mul_of_pos_left hy (Nat.pos_pow_of_pos _ (by decide))
    have h64 : (2 : Nat) ^ (64 - 8 * i) ≤ 2 ^ 64 := Nat.pow_le_pow_right (by decide) (by omega)
    rw [hs, Nat.shiftLeft_eq, Nat.mod_eq_of_lt (by omega), ← Nat.mul_add_lt_is_or hylt P]
    have hnew : 2 ^ (64 - 8 * i) * P + y * 2 ^ (64 - 8 * (i + 1)) =
        2 ^ (64 - 8 * (i + 1)) * (P * 256 + y) := by
      rw [hpow]; ring
    rw [hnew, ih (i + 1) (P * 256 + y) (by omega)]
    have : i + 1 + n = i + (n + 1) := by omega
    rw [this, pow_succ]
    congr 1
    ring

theorem beAt_short (key : List Byte) :
    ∀ (m i : Nat), key.length ≤ i → beAt key m i = 0 := by
  intro m
  induction m with
  | zero => intro i _; rfl
  | succ m ih =>
    intro i hi
    unfold beAt
    rw [ih (i + 1) (by omega), List.getD_eq_default _ _ hi]
    simp

theorem beAt_pad (key : List Byte) (m : Nat) :
    ∀ (n i : Nat), key.length ≤ i + n → beAt key (n + m) i = beAt key n i * 256 ^ m := by
  intro n
  induction n with
  | zero =>
    intro i hi
    simp only [Nat.zero_add, beAt, Nat.zero_mul]
    exact beAt_short key m i (by omega)
  | succ n ih =>
    intro i hi
    rw [show n + 1 + m = (n + m) + 1 by omega]
    unfold beAt
    rw [ih (i + 1) (by omega), pow_add]
    ring

/-- The `uint64` that `calcScore` converts: the first eight bytes of the key,
big-endian, missing bytes being zero. -/
theorem calcScore_eq (key : List Byte) : calcScore key = round53 (beAt key 8 0) := by
  unfold calcScore
  congr 1
  have h := calcScoreLoop_closed key (if key.length > 8 then 8 else key.length) 0 0
    (by split <;> omega)
  simp only [Nat.mul_zero, Nat.zero_mul, Nat.zero_add] at h
  rw [h]
  by_cases hlen : key.length > 8
  · simp [hlen]
  · simp only [hlen, if_false]
    have hp := beAt_pad key (8 - key.length) key.length 0 (by omega)
    rw [show key.length + (8 - key.length) = 8 by omega] at hp
    rw [hp, Nat.mul_comm]
    congr 1
    rw [show (256 : Nat) = 2 ^ 8 by norm_num, ← pow_mul]
    congr 1
    omega

theorem calcScore_mono (a b : List Byte) (hab : keyLt a b) : calcScore a ≤ calcScore b := by
  rw [calcScore_eq, calcScore_eq]
  apply round53_mono _ _ (beAt_mono 8 a b hab)
  have := beAt_lt b 8 0
  omega

/-- On a node that carries the score of its key, `compare` is the byte-wise
comparison of the keys. -/
theorem compare_eq_bytesCompare (key : List Byte) (next : Element)
    (hs : next.score = calcScore next.entry.Key) :
    compare (calcScore key) key next = bytesCompare key next.entry.Key := by
  unfold compare
  rw [hs]
  by_cases h1 : calcScore key = calcScore next.entry.Key
  · simp only [h1, if_true]
  · simp only [h1, if_false]
    rcases keyLt_total key next.entry.Key with h | h | h
    · have := calcScore_mono _ _ h
      have hlt : calcScore key < calcScore next.entry.Key := by omega
      simp only [hlt, if_true]
      unfold keyLt at h
      rcases bytesCompare_cases key next.entry.Key with h2 | h2 | h2 <;> omega
    · rw [h] at h1; exact absurd rfl h1
    · have := calcScore_mono _ _ h
      have hlt : ¬ (calcScore key < calcScore next.entry.Key) := by omega
      simp only [hlt, if_false]
      unfold keyLt at h
      rw [bytesCompare_swap] at h
      rcases bytesCompare_cases key next.entry.Key with h2 | h2 | h2 <;> omega

/-! ## Theorems: the heap -/

theorem shape_getElem (heap heap' : List Element)
    (hs : heap'.map shape = heap.map shape) (a : Nat) :
    Option.map shape heap'[a]? = Option.map shape heap[a]? := by
  rw [← List.getElem?_map, ← List.getElem?_map, hs]

theorem keyAt_congr (heap heap' : List Element)
    (hs : heap'.map shape = heap.map shape) (a : Nat) : keyAt heap' a = keyAt heap a := by
  have h := shape_getElem heap heap' hs a
  unfold keyAt
  cases h1 : heap'[a]? <;> cases h2 : heap[a]? <;> rw [h1, h2] at h <;>
    simp [shape] at h ⊢
  rw [h.2.1]

theorem heightAt_congr (heap heap' : List Element)
    (hs : heap'.map shape = heap.map shape) (a : Nat) :
    heightAt heap' a = heightAt heap a := by
  have h := shape_getElem heap heap' hs a
  unfold heightAt
  cases h1 : heap'[a]? <;> cases h2 : heap[a]? <;> rw [h1, h2] at h <;>
    simp [shape] at h ⊢
  exact h.1

theorem NodeOK_congr (heap heap' : List Element)
    (hs : heap'.map shape = heap.map shape) (a : Nat) (h : NodeOK heap a) :
    NodeOK heap' a := by
  have hsh := shape_getElem heap heap' hs a
  obtain ⟨e, he, hsc⟩ := h
  rw [he] at hsh
  cases h1 : heap'[a]? with
  | none => rw [h1] at hsh; simp at hsh
  | some e' =>
    rw [h1] at hsh
    simp [shape] at hsh
    exact ⟨e', h1, by rw [hsh.2.2, hsh.2.1]; exact hsc⟩

theorem length_congr (heap heap' : List Element)
    (hs : heap'.map shape = heap.map shape) : heap'.length = heap.length := by
  have := congrArg List.length hs
  simpa using this

theorem getLevel_isSome (heap : List Element) (a i : Nat) :
    (∃ x, getLevel heap a i = some x) ↔ i < heightAt heap a := by
  unfold getLevel heightAt
  cases heap[a]? with
  | none => simp
  | some e =>
    simp only []
    constructor
    · rintro ⟨x, hx⟩
      exact (List.getElem?_eq_some.1 hx).1
    · intro h
      exact ⟨_, List.getElem?_eq_getElem h⟩

theorem setLevel_spec (heap heap' : List Element) (a i : Nat) (v : Option Nat)
    (h : setLevel heap a i v = some heap') :
    heap'.map shape = heap.map shape ∧
    ∀ b j, getLevel heap' b j = if b = a ∧ j = i then some v else getLevel heap b j := by
  unfold setLevel at h
  cases he : heap[a]? with
  | none => rw [he] at h; simp at h
  | some e =>
    rw [he] at h
    simp only [] at h
    split at h
    · rename_i hi
      simp only [Option.some.injEq] at h
      subst h
      have halt : a < heap.length := (List.getElem?_eq_some.1 he).1
      constructor
      · rw [List.map_set]
        apply List.ext_getElem?
        intro n
        rw [List.getElem?_set]
        by_cases han : a = n
        · subst han
          simp only [if_true, List.length_map, halt, List.getElem?_map, he, Option.map_some']
          simp [shape]
        · simp [han]
      · intro b j
        unfold getLevel
        rw [List.getElem?_set]
        by_cases hab : a = b
        · subst hab
          simp only [if_true, halt, he, true_and]
          rw [List.getElem?_set]
          by_cases hij : i = j
          · subst hij; simp [hi]
          · have hji : ¬ (j = i) := fun h => hij h.symm
            simp [hij, hji]
        · have hba : ¬ (b = a) := fun h => hab h.symm
          simp [hab, hba]
    · simp at h

theorem setLevel_isSome (heap : List Element) (a i : Nat) (v : Option Nat)
    (h : i < heightAt heap a) : ∃ heap', setLevel heap a i v = some heap' := by
  unfold setLevel
  unfold heightAt at h
  cases he : heap[a]? with
  | none => rw [he] at h; simp at h
  | some e =>
    rw [he] at h
    simp only [] at h ⊢
    simp [h]

theorem setEntry_spec (heap heap' : List Element) (a : Nat) (data : Entry)
    (h : setEntry heap a data = some heap') :
    ∃ e, heap[a]? = some e ∧ heap' = heap.set a { e with entry := data } ∧
      ∀ b j, getLevel heap' b j = getLevel heap b j := by
  unfold setEntry at h
  cases he : heap[a]? with
  | none => rw [he] at h; simp at h
  | some e =>
    rw [he] at h
    simp only [Option.some.injEq] at h
    subst h
    refine ⟨e, rfl, rfl, ?_⟩
    intro b j
    have halt : a < heap.length := (List.getElem?_eq_some.1 he).1
    unfold getLevel
    rw [List.getElem?_set]
    by_cases hab : a = b
    · subst hab; simp [halt, he]
    · simp [hab]

/-! ## Theorems: one level of the descent -/

theorem Linked_tail (heap : List Element) (i a : Nat) (S : List Nat)
    (h : Linked heap i (a :: S)) : Linked heap i S := by
  cases S with
  | nil => trivial
  | cons b rest => exact h.2

theorem Linked_suffix (heap : List Element) (i : Nat) :
    ∀ (X Y : List Nat), Linked heap i (X ++ Y) → Linked heap i Y := by
  intro X
  induction X with
  | nil => intro Y h; exact h
  | cons x X ih =>
    intro Y h
    exact ih Y (Linked_tail heap i x (X ++ Y) h)

theorem Linked_head (heap : List Element) (i a : Nat) (S : List Nat)
    (h : Linked heap i (a :: S)) : getLevel heap a i = some S.head? := by
  cases S with
  | nil => exact h
  | cons b rest => exact h.1

theorem Linked_congr (heap heap' : List Element) (i : Nat) :
    ∀ (L : List Nat), (∀ a ∈ L, getLevel heap' a i = getLevel heap a i) →
      Linked heap i L → Linked heap' i L := by
  intro L
  induction L with
  | nil => intro _ _; trivial
  | cons a S ih =>
    intro hc h
    cases S with
    | nil =>
      show getLevel heap' a i = some none
      rw [hc a (by simp)]; exact h
    | cons b rest =>
      refine ⟨?_, ih (fun x hx => hc x (List.mem_cons_of_mem _ hx)) h.2⟩
      rw [hc a (by simp)]; exact h.1

theorem lastFrom_mem (S : List Nat) : ∀ a, lastFrom a S ∈ a :: S := by
  induction S with
  | nil => intro a; simp [lastFrom]
  | cons b S ih =>
    intro a
    unfold lastFrom
    exact List.mem_cons_of_mem _ (ih b)

theorem lastFrom_append (X : List Nat) : ∀ (a p : Nat) (Y : List Nat),
    lastFrom a (X ++ p :: Y) = lastFrom p Y := by
  induction X with
  | nil => intro a p Y; rfl
  | cons x X ih => intro a p Y; exact ih x p Y

/-- The inner loop at level `i` from `a`: it passes the nodes `S1`, whose keys
are below `key`, and ends at the first node of `S2`, whose key is not. -/
theorem walkLevel_run (heap : List Element) (key : List Byte) (i : Nat) (S2 : List Nat)
    (h2 : ∀ b ∈ S2.head?, NodeOK heap b ∧ ¬ keyLt (keyAt heap b) key) :
    ∀ (S1 : List Nat) (a fuel : Nat), S1.length < fuel →
      Linked heap i (a :: (S1 ++ S2)) →
      (∀ b ∈ S1, NodeOK heap b ∧ keyLt (keyAt heap b) key) →
      walkLevel heap (calcScore key) key i fuel a =
        some (match S2.head? with
          | none => Walk.stop (lastFrom a S1)
          | some b => if keyAt heap b = key then Walk.found b else Walk.stop (lastFrom a S1)) := by
  intro S1
  induction S1 with
  | nil =>
    intro a fuel hfuel hl _
    obtain ⟨fuel, rfl⟩ : ∃ f, fuel = f + 1 := ⟨fuel - 1, by simp at hfuel; omega⟩
    unfold walkLevel
    have hh := Linked_head heap i a _ hl
    simp only [List.nil_append] at hh
    rw [hh]
    cases hS2 : S2.head? with
    | none => simp [lastFrom]
    | some b =>
      obtain ⟨⟨e, he, hsc⟩, hnlt⟩ := h2 b (by rw [hS2]; simp)
      have hk : keyAt heap b = e.entry.Key := by unfold keyAt; rw [he]
      simp only [he, compare_eq_bytesCompare key e hsc]
      rw [hk] at hnlt ⊢
      unfold keyLt at hnlt
      rw [bytesCompare_swap] at hnlt
      have hle : bytesCompare key e.entry.Key ≤ 0 := by omega
      simp only [hle, if_true, lastFrom]
      by_cases heq : e.entry.Key = key
      · have h0 : bytesCompare key e.entry.Key = 0 :=
          (bytesCompare_eq_zero _ _).2 heq.symm
        rw [if_pos h0, if_pos heq]
      · have h0 : ¬ (bytesCompare key e.entry.Key = 0) := by
          intro h
          exact heq ((bytesCompare_eq_zero _ _).1 h).symm
        rw [if_neg h0, if_neg heq]
  | cons b S1 ih =>
    intro a fuel hfuel hl h1
    obtain ⟨fuel, rfl⟩ : ∃ f, fuel = f + 1 := ⟨fuel - 1, by simp at hfuel; omega⟩
    unfold walkLevel
    have hh := Linked_head heap i a _ hl
    simp only [List.cons_append, List.head?_cons] at hh
    obtain ⟨⟨e, he, hsc⟩, hlt⟩ := h1 b (by simp)
    have hk : keyAt heap b = e.entry.Key := by unfold keyAt; rw [he]
    simp only [hh, he, compare_eq_bytesCompare key e hsc]
    rw [hk] at hlt
    unfold keyLt at hlt
    rw [bytesCompare_swap] at hlt
    have hle : ¬ (bytesCompare key e.entry.Key ≤ 0) := by omega
    simp only [hle, if_false]
    rw [ih b fuel (by simp at hfuel; omega) (Linked_tail heap i a _ hl)
      (fun x hx => h1 x (List.mem_cons_of_mem _ hx))]
    rfl

/-! ## Theorems: the descent -/

theorem predAt_mem (heap : List Element) (hdr : Nat) (A : List Nat) (i : Nat) :
    predAt heap hdr A i = hdr ∨ (predAt heap hdr A i ∈ A ∧ i < heightAt heap (predAt heap hdr A i)) := by
  have h := lastFrom_mem (A.filter (fun b => decide (i < heightAt heap b))) hdr
  rcases List.mem_cons.1 h with h | h
  · left; exact h
  · right
    rw [List.mem_filter] at h
    exact ⟨h.1, by simpa using h.2⟩

/-- One level of the descent, from a node `p` that is the header or a node of
`A` of more than `i` levels. -/
theorem walkLevel_layout (heap : List Element) (hdr : Nat) (A B : List Nat) (top : Nat)
    (key : List Byte) (hlay : Layout heap hdr (A ++ B) top)
    (hA : ∀ b ∈ A, keyLt (keyAt heap b) key) (hB : ∀ b ∈ B, ¬ keyLt (keyAt heap b) key)
    (fuel : Nat) (hfuel : (A ++ B).length < fuel) (i p : Nat) (hi : i < top)
    (hp : p = hdr ∨ (p ∈ A ∧ i < heightAt heap p)) :
    walkLevel heap (calcScore key) key i fuel p =
      some (match (B.filter (fun b => decide (i < heightAt heap b))).head? with
        | none => Walk.stop (predAt heap hdr A i)
        | some b =>
          if keyAt heap b = key then Walk.found b else Walk.stop (predAt heap hdr A i)) := by
  have hl := hlay.links i hi
  rw [List.filter_append] at hl
  generalize hFA : A.filter (fun b => decide (i < heightAt heap b)) = FA at hl
  generalize hFB : B.filter (fun b => decide (i < heightAt heap b)) = FB at hl
  have hpm : p ∈ hdr :: FA := by
    rcases hp with hp | ⟨hp1, hp2⟩
    · rw [hp]; simp
    · apply List.mem_cons_of_mem
      rw [← hFA, List.mem_filter]
      exact ⟨hp1, by simpa using hp2⟩
  obtain ⟨X, Y, hXY⟩ := List.append_of_mem hpm
  have hlast : predAt heap hdr A i = lastFrom p Y := by
    unfold predAt
    rw [hFA]
    cases X with
    | nil =>
      simp only [List.nil_append, List.cons.injEq] at hXY
      rw [hXY.1, hXY.2]
    | cons x X =>
      simp only [List.cons_append, List.cons.injEq] at hXY
      rw [hXY.2, lastFrom_append]
  have hYsub : ∀ b ∈ Y, b ∈ A := by
    intro b hb
    have : b ∈ hdr :: FA := by rw [hXY]; simp [hb]
    have hbFA : b ∈ FA := by
      cases X with
      | nil =>
        simp only [List.nil_append, List.cons.injEq] at hXY
        rw [hXY.2]; exact hb
      | cons x X =>
        simp only [List.cons_append, List.cons.injEq] at hXY
        rw [hXY.2]; simp [hb]
    rw [← hFA, List.mem_filter] at hbFA
    exact hbFA.1
  have hYlen : Y.length ≤ FA.length := by
    have := congrArg List.length hXY
    simp at this
    omega
  have hFAlen : FA.length ≤ A.length := by
    rw [← hFA]; exact List.length_filter_le _ _
  have hlink : Linked heap i (p :: (Y ++ FB)) := by
    have h1 : hdr :: (FA ++ FB) = X ++ (p :: (Y ++ FB)) := by
      rw [← List.cons_append, hXY]; simp
    rw [h1] at hl
    exact Linked_suffix heap i X _ hl
  have h2 : ∀ b ∈ FB.head?, NodeOK heap b ∧ ¬ keyLt (keyAt heap b) key := by
    intro b hb
    have hbFB : b ∈ FB := List.mem_of_mem_head? hb
    rw [← hFB, List.mem_filter] at hbFB
    exact ⟨hlay.nodes b (List.mem_append_right _ hbFB.1), hB b hbFB.1⟩
  have hrun := walkLevel_run heap key i FB h2 Y p fuel
    (by simp at hfuel; omega) hlink
    (fun b hb => ⟨hlay.nodes b (List.mem_append_left _ (hYsub b hb)), hA b (hYsub b hb)⟩)
  rw [hrun, hlast]

/-- The descent of `Add` for a key that no node carries: the trail holds, at
every level, the last node below the key. -/
theorem addDescend_absent (heap : List Element) (hdr : Nat) (A B : List Nat) (top : Nat)
    (key : List Byte) (hlay : Layout heap hdr (A ++ B) top)
    (hA : ∀ b ∈ A, keyLt (keyAt heap b) key) (hB : ∀ b ∈ B, ¬ keyLt (keyAt heap b) key)
    (habs : ∀ b ∈ B, keyAt heap b ≠ key)
    (fuel : Nat) (hfuel : (A ++ B).length < fuel) :
    ∀ (n p : Nat) (hs : List (Option Nat)), n ≤ top → n ≤ hs.length →
      (p = hdr ∨ (p ∈ A ∧ n ≤ heightAt heap p)) →
      ∃ hs', addDescend heap (calcScore key) key fuel n p hs = some (Sum.inr hs') ∧
        hs'.length = hs.length ∧
        ∀ i, hs'[i]? = if i < n then some (some (predAt heap hdr A i)) else hs[i]? := by
  intro n
  induction n with
  | zero =>
    intro p hs _ _ _
    exact ⟨hs, rfl, rfl, fun i => by simp⟩
  | succ n ih =>
    intro p hs htop hlen hp
    have hp' : p = hdr ∨ (p ∈ A ∧ n < heightAt heap p) := by
      rcases hp with hp | hp
      · left; exact hp
      · right; exact ⟨hp.1, by omega⟩
    have hw := walkLevel_layout heap hdr A B top key hlay hA hB fuel hfuel n p (by omega) hp'
    have hstop : walkLevel heap (calcScore key) key n fuel p =
        some (Walk.stop (predAt heap hdr A n)) := by
      rw [hw]
      cases hh : (B.filter (fun b => decide (n < heightAt heap b))).head? with
      | none => rfl
      | some b =>
        have hb : b ∈ B := (List.mem_filter.1 (List.mem_of_mem_head? hh)).1
        simp only [habs b hb, if_false]
    have hpn : predAt heap hdr A n = hdr ∨
        (predAt heap hdr A n ∈ A ∧ n ≤ heightAt heap (predAt heap hdr A n)) := by
      rcases predAt_mem heap hdr A n with h | h
      · left; exact h
      · right; exact ⟨h.1, by omega⟩
    obtain ⟨hs', hrun, hlen', hget⟩ :=
      ih (predAt heap hdr A n) (hs.set n (some (predAt heap hdr A n))) (by omega)
        (by rw [List.length_set]; omega) hpn
    refine ⟨hs', ?_, by rw [hlen', List.length_set], ?_⟩
    · unfold addDescend
      have hlt : n < hs.length := by omega
      simp only [hlt, if_true, hstop]
      exact hrun
    · intro i
      rw [hget i, List.getElem?_set]
      by_cases hin : i < n
      · have : i < n + 1 := by omega
        simp [hin, this]
      · by_cases hin2 : n = i
        · subst hin2
          have : n < hs.length := by omega
          simp [this]
        · have : ¬ (i < n + 1) := by omega
          simp [hin, hin2, this]

/-- The descent of `Add` for a key that the node `b0` carries. -/
theorem addDescend_found (heap : List Element) (hdr : Nat) (A : List Nat) (b0 : Nat)
    (B' : List Nat) (top : Nat)
    (key : List Byte) (hlay : Layout heap hdr (A ++ b0 :: B') top)
    (hA : ∀ b ∈ A, keyLt (keyAt heap b) key) (hb0 : keyAt heap b0 = key)
    (hB' : ∀ b ∈ B', keyLt key (keyAt heap b)) (hh0 : 1 ≤ heightAt heap b0)
    (fuel : Nat) (hfuel : (A ++ b0 :: B').length < fuel) :
    ∀ (n p : Nat) (hs : List (Option Nat)), n ≤ top → n ≤ hs.length →
      heightAt heap b0 ≤ n →
      (p = hdr ∨ (p ∈ A ∧ n ≤ heightAt heap p)) →
      addDescend heap (calcScore key) key fuel n p hs = some (Sum.inl b0) := by
  have hB : ∀ b ∈ b0 :: B', ¬ keyLt (keyAt heap b) key := by
    intro b hb
    rcases List.mem_cons.1 hb with rfl | hb
    · rw [hb0]; exact keyLt_irrefl key
    · exact keyLt_asymm _ _ (hB' b hb)
  intro n
  induction n with
  | zero => intro p hs _ _ h0 _; omega
  | succ n ih =>
    intro p hs htop hlen hh hp
    have hp' : p = hdr ∨ (p ∈ A ∧ n < heightAt heap p) := by
      rcases hp with hp | hp
      · left; exact hp
      · right; exact ⟨hp.1, by omega⟩
    have hw := walkLevel_layout heap hdr A (b0 :: B') top key hlay hA hB fuel hfuel n p
      (by omega) hp'
    have hlt : n < hs.length := by omega
    unfold addDescend
    simp only [hlt, if_true, hw]
    by_cases htall : n < heightAt heap b0
    · simp [List.filter_cons, htall, hb0]
    · have hfil : (List.filter (fun b => decide (n < heightAt heap b)) (b0 :: B')) =
          List.filter (fun b => decide (n < heightAt heap b)) B' := by
        simp [List.filter_cons, htall]
      rw [hfil]
      have hpn : predAt heap hdr A n = hdr ∨
          (predAt heap hdr A n ∈ A ∧ n ≤ heightAt heap (predAt heap hdr A n)) := by
        rcases predAt_mem heap hdr A n with h | h
        · left; exact h
        · right; exact ⟨h.1, by omega⟩
      have hrec := ih (predAt heap hdr A n) (hs.set n (some (predAt heap hdr A n)))
        (by omega) (by rw [List.length_set]; omega) (by omega) hpn
      cases hhd : (B'.filter (fun b => decide (n < heightAt heap b))).head? with
      | none => simp only []; exact hrec
      | some b =>
        have hb : b ∈ B' := (List.mem_filter.1 (List.mem_of_mem_head? hhd)).1
        have hne : keyAt heap b ≠ key := fun h => keyLt_ne _ _ (hB' b hb) h.symm
        simp only [hne, if_false]
        exact hrec

/-- The descent of `Search` is the descent of `Add` without the trail. -/
theorem searchDescend_eq (heap : List Element) (score : Nat) (key : List Byte) (fuel : Nat) :
    ∀ (n p : Nat) (hs : List (Option Nat)), n ≤ hs.length →
      searchDescend heap score key fuel n p =
        match addDescend heap score key fuel n p hs with
        | none => none
        | some (Sum.inl next) =>
          (match heap[next]? with
            | none => none
            | some nx => some (some nx.entry))
        | some (Sum.inr _) => some none := by
  intro n
  induction n with
  | zero => intro p hs _; rfl
  | succ n ih =>
    intro p hs hlen
    unfold searchDescend addDescend
    have hlt : n < hs.length := by omega
    simp only [hlt, if_true]
    cases hw : walkLevel heap score key n fuel p with
    | none => rfl
    | some w =>
      cases w with
      | found next => rfl
      | stop q =>
        simp only []
        exact ih q (hs.set n (some q)) (by rw [List.length_set]; omega)

/-! ## Theorems: the splice -/

/-- The splice loop links the new element `N` after `pred j` at every level `j`
it runs through, and changes nothing else. -/
theorem spliceLoop_spec (N : Nat) (hs : List (Option Nat)) (pred : Nat → Nat) :
    ∀ (n i : Nat) (heap : List Element),
      (∀ j, i ≤ j → j < i + n →
        hs[j]? = some (some (pred j)) ∧ pred j ≠ N ∧ j < heightAt heap (pred j)) →
      i + n ≤ heightAt heap N →
      ∃ heap', spliceLoop N hs n i heap = some heap' ∧ heap'.map shape = heap.map shape ∧
        ∀ a j, getLevel heap' a j =
          if i ≤ j ∧ j < i + n then
            (if a = pred j then some (some N)
             else if a = N then getLevel heap (pred j) j else getLevel heap a j)
          else getLevel heap a j := by
  intro n
  induction n with
  | zero =>
    intro i heap _ _
    refine ⟨heap, rfl, rfl, ?_⟩
    intro a j
    have : ¬ (i ≤ j ∧ j < i + 0) := by omega
    simp only [this, if_false]
  | succ n ih =>
    intro i heap hpre hN
    obtain ⟨hhs, hqN, hqh⟩ := hpre i (Nat.le_refl _) (by omega)
    obtain ⟨nxt, hnxt⟩ := (getLevel_isSome heap (pred i) i).2 hqh
    obtain ⟨heap1, h1⟩ := setLevel_isSome heap N i nxt (by omega)
    obtain ⟨hsh1, hget1⟩ := setLevel_spec heap heap1 N i nxt h1
    obtain ⟨heap2, h2⟩ := setLevel_isSome heap1 (pred i) i (some N)
      (by rw [heightAt_congr heap heap1 hsh1]; exact hqh)
    obtain ⟨hsh2, hget2⟩ := setLevel_spec heap1 heap2 (pred i) i (some N) h2
    have hsh : heap2.map shape = heap.map shape := by rw [hsh2, hsh1]
    obtain ⟨heap', hrun, hsh', hget'⟩ := ih (i + 1) heap2
      (by
        intro j hj1 hj2
        obtain ⟨ha, hb, hc⟩ := hpre j (by omega) (by omega)
        exact ⟨ha, hb, by rw [heightAt_congr heap heap2 hsh]; exact hc⟩)
      (by rw [heightAt_congr heap heap2 hsh]; omega)
    refine ⟨heap', ?_, by rw [hsh', hsh], ?_⟩
    · unfold spliceLoop
      simp only [hhs, hnxt, h1, h2]
      exact hrun
    · intro a j
      rw [hget' a j]
      by_cases hji : j = i
      · subst hji
        have c1 : ¬ (j + 1 ≤ j ∧ j < j + 1 + n) := by omega
        have c2 : j ≤ j ∧ j < j + (n + 1) := by omega
        simp only [c1, if_false, c2, if_true]
        rw [hget2 a j, hget1 a j]
        by_cases haq : a = pred j
        · simp [haq]
        · by_cases haN : a = N
          · simp [haq, haN, hnxt]
          · simp [haq, haN]
      · have hne : ∀ x, getLevel heap2 x j = getLevel heap x j := by
          intro x
          rw [hget2 x j, hget1 x j]
          simp [hji]
        by_cases hin : i + 1 ≤ j ∧ j < i + 1 + n
        · have c2 : i ≤ j ∧ j < i + (n + 1) := by omega
          simp only [hin, c2, and_self, if_true, hne]
        · have c2 : ¬ (i ≤ j ∧ j < i + (n + 1)) := by omega
          simp only [hin, c2, if_false, hne]

/-- Linking a new node `N` after the last node of `h :: FA` in a level chain. -/
theorem Linked_insert (g g' : List Element) (i N : Nat) (FB : List Nat) :
    ∀ (FA : List Nat) (h : Nat), (h :: (FA ++ FB)).Nodup →
      Linked g i (h :: (FA ++ FB)) →
      getLevel g' (lastFrom h FA) i = some (some N) →
      getLevel g' N i = getLevel g (lastFrom h FA) i →
      (∀ a ∈ h :: (FA ++ FB), a ≠ lastFrom h FA → getLevel g' a i = getLevel g a i) →
      Linked g' i (h :: (FA ++ N :: FB)) := by
  intro FA
  induction FA with
  | nil =>
    intro h hnd hl hq hN hrest
    simp only [List.nil_append, lastFrom] at *
    refine ⟨hq, ?_⟩
    have hFB : Linked g' i FB := by
      apply Linked_congr g g' i FB _ (Linked_tail g i h FB hl)
      intro a ha
      apply hrest a (List.mem_cons_of_mem _ ha)
      intro hah
      rw [hah] at ha
      exact (List.nodup_cons.1 hnd).1 ha
    cases FB with
    | nil =>
      show getLevel g' N i = some none
      rw [hN]; exact hl
    | cons b r =>
      refine ⟨?_, hFB⟩
      rw [hN]; exact hl.1
  | cons c FA ih =>
    intro h hnd hl hq hN hrest
    simp only [List.cons_append, lastFrom] at *
    have hnd' := (List.nodup_cons.1 hnd)
    have hlast : lastFrom c FA ∈ c :: (FA ++ FB) := by
      have := lastFrom_mem FA c
      rcases List.mem_cons.1 this with h1 | h1
      · rw [h1]; simp
      · exact List.mem_cons_of_mem _ (List.mem_append_left _ h1)
    refine ⟨?_, ih c hnd'.2 hl.2 hq hN ?_⟩
    · rw [hrest h (by simp)]
      · exact hl.1
      · intro hh
        rw [← hh] at hlast
        exact hnd'.1 hlast
    · intro a ha hne
      exact hrest a (List.mem_cons_of_mem _ ha) hne

/-! ## Theorems: the skiplist invariant -/

theorem split_sorted (f : Nat → List Byte) (k : List Byte) :
    ∀ (chain : List Nat), chain.Pairwise (fun a b => keyLt (f a) (f b)) →
      ∃ A B, chain = A ++ B ∧ (∀ a ∈ A, keyLt (f a) k) ∧ (∀ b ∈ B, ¬ keyLt (f b) k) := by
  intro chain
  induction chain with
  | nil => intro _; exact ⟨[], [], rfl, by simp, by simp⟩
  | cons x xs ih =>
    intro hs
    rw [List.pairwise_cons] at hs
    by_cases hx : keyLt (f x) k
    · obtain ⟨A, B, hAB, hA, hB⟩ := ih hs.2
      refine ⟨x :: A, B, by rw [hAB]; rfl, ?_, hB⟩
      intro a ha
      rcases List.mem_cons.1 ha with rfl | ha
      · exact hx
      · exact hA a ha
    · refine ⟨[], x :: xs, rfl, by simp, ?_⟩
      intro b hb
      rcases List.mem_cons.1 hb with rfl | hb
      · exact hx
      · intro hbk
        exact hx (keyLt_trans _ _ _ (hs.1 b hb) hbk)

theorem Inv.nodup {s : SkipList} {chain : List Nat} (h : Inv s chain) : chain.Nodup := by
  apply List.Pairwise.imp _ h.sorted
  intro a b hab heq
  rw [heq] at hab
  exact keyLt_irrefl _ hab

theorem Layout.mono {heap : List Element} {hdr : Nat} {chain : List Nat} {top top' : Nat}
    (h : Layout heap hdr chain top) (hle : top' ≤ top) : Layout heap hdr chain top' :=
  ⟨h.nodes, fun i hi => h.links i (by omega)⟩

theorem entryAt_of_NodeOK (heap : List Element) (a : Nat) (h : NodeOK heap a) :
    ∃ e, heap[a]? = some e ∧ entryAt heap a = some e.entry ∧ keyAt heap a = e.entry.Key := by
  obtain ⟨e, he, _⟩ := h
  refine ⟨e, he, ?_, ?_⟩
  · unfold entryAt; rw [he]
  · unfold keyAt; rw [he]

/-- `Search` for a key that no node carries returns `nil`. -/
theorem Search_absent (s : SkipList) (chain : List Nat) (hinv : Inv s chain) (k : List Byte)
    (habs : ∀ b ∈ chain, keyAt s.heap b ≠ k) : Search s k = some none := by
  obtain ⟨A, B, hAB, hA, hB⟩ := split_sorted (keyAt s.heap) k chain hinv.sorted
  subst hAB
  have hlay := hinv.layout.mono hinv.lenLe
  have hfuel : (A ++ B).length < s.heap.length := by rw [hinv.heapLen]; omega
  have hlen : s.length ≤ (List.replicate defaultMaxLevel (none : Option Nat)).length := by
    rw [List.length_replicate, ← hinv.maxLevel]; exact hinv.lenLe
  obtain ⟨hs', hrun, _, _⟩ := addDescend_absent s.heap 0 A B s.length k hlay hA hB
    (fun b hb => habs b (List.mem_append_right _ hb)) s.heap.length hfuel s.length 0
    (List.replicate defaultMaxLevel none) (Nat.le_refl _) hlen (Or.inl rfl)
  unfold Search
  rw [hinv.hdr, searchDescend_eq s.heap (calcScore k) k s.heap.length s.length 0 _ hlen, hrun]

/-- `Search` for the key of a node returns the entry of that node. -/
theorem Search_mem (s : SkipList) (chain : List Nat) (hinv : Inv s chain) (b0 : Nat)
    (hb0 : b0 ∈ chain) : Search s (keyAt s.heap b0) = some (entryAt s.heap b0) := by
  obtain ⟨A, B', hAB⟩ := List.append_of_mem hb0
  have hsorted := hinv.sorted
  rw [hAB, List.pairwise_append, List.pairwise_cons] at hsorted
  have hlay := hinv.layout.mono hinv.lenLe
  rw [hAB] at hlay
  have hfuel : (A ++ b0 :: B').length < s.heap.length := by
    rw [hinv.heapLen, hAB]; omega
  have hlen : s.length ≤ (List.replicate defaultMaxLevel (none : Option Nat)).length := by
    rw [List.length_replicate, ← hinv.maxLevel]; exact hinv.lenLe
  have hh := hinv.heights b0 hb0
  have hrun := addDescend_found s.heap 0 A b0 B' s.length (keyAt s.heap b0) hlay
    (fun a ha => hsorted.2.2 a ha b0 (by simp)) rfl
    (fun b hb => hsorted.2.1.1 b hb) hh.1 s.heap.length hfuel s.length 0
    (List.replicate defaultMaxLevel none) (Nat.le_refl _) hlen hh.2 (Or.inl rfl)
  obtain ⟨e, he, hent, _⟩ := entryAt_of_NodeOK s.heap b0 (hinv.layout.nodes b0 hb0)
  unfold Search
  rw [hinv.hdr, searchDescend_eq s.heap _ _ s.heap.length s.length 0 _ hlen, hrun, hent]
  simp only [he]

/-! ## Theorems: `Add` keeps the invariant -/

theorem getElem?_snoc_lt (heap : List Element) (e : Element) (a : Nat)
    (h : a < heap.length) : (heap ++ [e])[a]? = heap[a]? :=
  List.getElem?_append_left h

/-- What is read at an address does not change when the two heaps hold the same
element there up to `shape`, and the same links. -/
theorem keyAt_eq_of_getElem (heap heap' : List Element) (a : Nat)
    (h : heap'[a]? = heap[a]?) : keyAt heap' a = keyAt heap a := by
  unfold keyAt; rw [h]

theorem heightAt_eq_of_getElem (heap heap' : List Element) (a : Nat)
    (h : heap'[a]? = heap[a]?) : heightAt heap' a = heightAt heap a := by
  unfold heightAt; rw [h]

theorem getLevel_eq_of_getElem (heap heap' : List Element) (a i : Nat)
    (h : heap'[a]? = heap[a]?) : getLevel heap' a i = getLevel heap a i := by
  unfold getLevel; rw [h]

theorem entryAt_congr (heap heap' : List Element)
    (hs : heap'.map shape = heap.map shape) (a : Nat) : entryAt heap' a = entryAt heap a := by
  have h := shape_getElem heap heap' hs a
  unfold entryAt
  cases h1 : heap'[a]? <;> cases h2 : heap[a]? <;> rw [h1, h2] at h <;>
    simp [shape] at h ⊢
  exact h.2.1

/-- The invariant only reads the length of the heap and, at every address, the
key, the number of levels, the score and the links. -/
theorem Inv_transfer (s : SkipList) (heap' : List Element) (chain : List Nat)
    (hinv : Inv s chain) (hlen : heap'.length = s.heap.length)
    (hk : ∀ a, keyAt heap' a = keyAt s.heap a)
    (hh : ∀ a, heightAt heap' a = heightAt s.heap a)
    (hn : ∀ a, NodeOK s.heap a → NodeOK heap' a)
    (hg : ∀ a i, getLevel heap' a i = getLevel s.heap a i) :
    Inv { s with heap := heap' } chain := by
  refine ⟨hinv.hdr, hinv.maxLevel, hinv.lenPos, hinv.lenLe, ?_, ?_, ?_, ?_, ?_, ?_, ?_⟩
  · intro a ha
    show 0 < a ∧ a < heap'.length
    rw [hlen]; exact hinv.range a ha
  · intro a h0 hlt
    exact hinv.cover a h0 (by rw [← hlen]; exact hlt)
  · show heap'.length = chain.length + 1
    rw [hlen]; exact hinv.heapLen
  · intro a ha
    show 1 ≤ heightAt heap' a ∧ heightAt heap' a ≤ s.length
    rw [hh a]; exact hinv.heights a ha
  · show chain.Pairwise (fun a b => keyLt (keyAt heap' a) (keyAt heap' b))
    simp only [hk]
    exact hinv.sorted
  · intro b hb
    exact hn b (hinv.layout.nodes b hb)
  · intro i hi
    show Linked heap' i (0 :: chain.filter (fun b => decide (i < heightAt heap' b)))
    simp only [hh]
    exact Linked_congr s.heap heap' i _ (fun a _ => hg a i) (hinv.layout.links i hi)

/-- `Add` of a record whose key the node `b0` carries: the entry of `b0` is
replaced and nothing else changes. -/
theorem Add_present (s : SkipList) (chain : List Nat) (hinv : Inv s chain)
    (draws : Nat → Nat) (data : Entry) (b0 : Nat) (hb0 : b0 ∈ chain)
    (hkey : keyAt s.heap b0 = data.Key) :
    ∃ e, s.heap[b0]? = some e ∧
      Add s draws data = some { s with heap := s.heap.set b0 { e with entry := data } } ∧
      Inv { s with heap := s.heap.set b0 { e with entry := data } } chain := by
  obtain ⟨e, he, _, hk⟩ := entryAt_of_NodeOK s.heap b0 (hinv.layout.nodes b0 hb0)
  obtain ⟨_, _, hsc⟩ : ∃ e', s.heap[b0]? = some e' ∧ e.score = calcScore e.entry.Key := by
    obtain ⟨e', he', hsc'⟩ := hinv.layout.nodes b0 hb0
    rw [he] at he'
    simp only [Option.some.injEq] at he'
    subst he'
    exact ⟨e, he, hsc'⟩
  have hek : e.entry.Key = data.Key := by rw [← hk]; exact hkey
  refine ⟨e, he, ?_, ?_⟩
  · obtain ⟨A, B', hAB⟩ := List.append_of_mem hb0
    have hsorted := hinv.sorted
    rw [hAB, List.pairwise_append, List.pairwise_cons] at hsorted
    have hlay := hinv.layout
    rw [hAB] at hlay
    have hfuel : (A ++ b0 :: B').length < s.heap.length := by
      rw [hinv.heapLen, hAB]; omega
    have hlen : s.maxLevel ≤ (List.replicate defaultMaxLevel (none : Option Nat)).length := by
      rw [List.length_replicate, ← hinv.maxLevel]
    have hh := hinv.heights b0 hb0
    have hrun := addDescend_found s.heap 0 A b0 B' s.maxLevel data.Key hlay
      (fun a ha => by rw [← hkey]; exact hsorted.2.2 a ha b0 (by simp)) hkey
      (fun b hb => by rw [← hkey]; exact hsorted.2.1.1 b hb) hh.1 s.heap.length hfuel
      s.maxLevel 0 (List.replicate defaultMaxLevel none) (Nat.le_refl _) hlen
      (by have := hinv.lenLe; omega) (Or.inl rfl)
    unfold Add
    simp only [hinv.hdr, hrun, setEntry, he]
  · have hlt : b0 < s.heap.length := (List.getElem?_eq_some.1 he).1
    have hget : ∀ a, (s.heap.set b0 { e with entry := data })[a]? =
        if b0 = a then some { e with entry := data } else s.heap[a]? := by
      intro a
      rw [List.getElem?_set]
      simp [hlt]
    apply Inv_transfer s _ chain hinv
    · rw [List.length_set]
    · intro a
      unfold keyAt
      rw [hget a]
      by_cases hab : b0 = a
      · subst hab; simp [he, hek]
      · simp [hab]
    · intro a
      unfold heightAt
      rw [hget a]
      by_cases hab : b0 = a
      · subst hab; simp [he]
      · simp [hab]
    · intro a ⟨e', he', hsc'⟩
      unfold NodeOK
      rw [hget a]
      by_cases hab : b0 = a
      · subst hab
        refine ⟨{ e with entry := data }, by simp, ?_⟩
        show e.score = calcScore data.Key
        rw [hsc, hek]
      · exact ⟨e', by simp [hab, he'], hsc'⟩
    · intro a i
      unfold getLevel
      rw [hget a]
      by_cases hab : b0 = a
      · subst hab; simp [he]
      · simp [hab]

/-- `Add` of a record whose key no node carries: a new element is allocated at
the end of the heap and linked in key order. -/
theorem Add_absent (s : SkipList) (chain : List Nat) (hinv : Inv s chain)
    (draws : Nat → Nat) (data : Entry)
    (habs : ∀ b ∈ chain, keyAt s.heap b ≠ data.Key) :
    ∃ s' A B, chain = A ++ B ∧ Add s draws data = some s' ∧
      Inv s' (A ++ s.heap.length :: B) ∧
      s'.heap.length = s.heap.length + 1 ∧
      (∀ a, a < s.heap.length →
        keyAt s'.heap a = keyAt s.heap a ∧ entryAt s'.heap a = entryAt s.heap a) ∧
      keyAt s'.heap s.heap.length = data.Key ∧
      entryAt s'.heap s.heap.length = some data := by
  obtain ⟨A, B, hAB, hA, hB⟩ := split_sorted (keyAt s.heap) data.Key chain hinv.sorted
  subst hAB
  have hmax := hinv.maxLevel
  obtain ⟨hlev1, hlev2⟩ := randLevel_range s.maxLevel draws (by rw [hmax]; decide)
  generalize hlevel : randLevel s.maxLevel draws = level at hlev1 hlev2
  generalize hN : s.heap.length = N
  have hNlen : N = (A ++ B).length + 1 := by rw [← hN]; exact hinv.heapLen
  -- the descent
  have hfuel : (A ++ B).length < s.heap.length := by rw [hN]; omega
  have hrl : s.maxLevel ≤ (List.replicate defaultMaxLevel (none : Option Nat)).length := by
    rw [List.length_replicate, ← hmax]
  obtain ⟨hs', hdesc, _, hhs'⟩ := addDescend_absent s.heap 0 A B s.maxLevel data.Key
    hinv.layout hA hB (fun b hb => habs b (List.mem_append_right _ hb)) s.heap.length hfuel
    s.maxLevel 0 (List.replicate defaultMaxLevel none) (Nat.le_refl _) hrl (Or.inl rfl)
  -- the heap after the allocation
  generalize hne : newElement (calcScore data.Key) data level = ne
  have hold : ∀ a, a < N → (s.heap ++ [ne])[a]? = s.heap[a]? := by
    intro a ha
    exact getElem?_snoc_lt s.heap ne a (by rw [hN]; exact ha)
  have hnew : (s.heap ++ [ne])[N]? = some ne := by
    rw [← hN]; exact List.getElem?_concat_length _ _
  have hneh : heightAt (s.heap ++ [ne]) N = level := by
    unfold heightAt; rw [hnew, ← hne]; simp [newElement]
  -- the trail
  have hpredlt : ∀ j, predAt s.heap 0 A j < N := by
    intro j
    rcases predAt_mem s.heap 0 A j with h | h
    · rw [h]; omega
    · have := (hinv.range _ (List.mem_append_left _ h.1)).2
      rw [hN] at this; exact this
  have hpredh : ∀ j, j < s.maxLevel → j < heightAt s.heap (predAt s.heap 0 A j) := by
    intro j hj
    rcases predAt_mem s.heap 0 A j with h | h
    · rw [h]
      exact (getLevel_isSome s.heap 0 j).1 ⟨_, Linked_head s.heap j 0 _ (hinv.layout.links j hj)⟩
    · exact h.2
  -- the splice
  obtain ⟨heap', hsplice, hsh, hget⟩ := spliceLoop_spec N hs' (predAt s.heap 0 A) level 0
    (s.heap ++ [ne])
    (by
      intro j _ hj
      refine ⟨?_, ?_, ?_⟩
      · rw [hhs' j]
        have : j < s.maxLevel := by omega
        simp [this]
      · have := hpredlt j; omega
      · rw [heightAt_eq_of_getElem _ _ _ (hold _ (hpredlt j))]
        exact hpredh j (by omega))
    (by rw [hneh]; omega)
  have hkeyOld : ∀ a, a < N → keyAt heap' a = keyAt s.heap a := by
    intro a ha
    rw [keyAt_congr _ _ hsh, keyAt_eq_of_getElem _ _ _ (hold a ha)]
  have hhOld : ∀ a, a < N → heightAt heap' a = heightAt s.heap a := by
    intro a ha
    rw [heightAt_congr _ _ hsh, heightAt_eq_of_getElem _ _ _ (hold a ha)]
  have hentOld : ∀ a, a < N → entryAt heap' a = entryAt s.heap a := by
    intro a ha
    rw [entryAt_congr _ _ hsh]
    unfold entryAt; rw [hold a ha]
  have hkeyN : keyAt heap' N = data.Key := by
    rw [keyAt_congr _ _ hsh]; unfold keyAt; rw [hnew, ← hne]; rfl
  have hentN : entryAt heap' N = some data := by
    rw [entryAt_congr _ _ hsh]; unfold entryAt; rw [hnew, ← hne]; rfl
  have hhN : heightAt heap' N = level := by
    rw [heightAt_congr _ _ hsh]; exact hneh
  have hlen' : heap'.length = N + 1 := by
    rw [length_congr _ _ hsh, List.length_append, hN]; rfl
  have hmem : ∀ a ∈ A ++ B, 0 < a ∧ a < N := by
    intro a ha
    have := hinv.range a ha
    rw [hN] at this; exact this
  refine ⟨{ s with heap := heap', length := if level > s.length then level else s.length },
    A, B, rfl, ?_, ?_, hlen', ?_, hkeyN, hentN⟩
  · unfold Add
    rw [hN] at hdesc
    simp only [hinv.hdr, hlevel, hne, hN, hdesc, hsplice]
  · refine ⟨hinv.hdr, hinv.maxLevel, ?_, ?_, ?_, ?_, ?_, ?_, ?_, ?_, ?_⟩
    · show 1 ≤ if level > s.length then level else s.length
      have := hinv.lenPos
      split <;> omega
    · show (if level > s.length then level else s.length) ≤ s.maxLevel
      have := hinv.lenLe
      split <;> omega
    · intro a ha
      show 0 < a ∧ a < heap'.length
      rw [hlen']
      rcases List.mem_append.1 ha with h | h
      · have := hmem a (List.mem_append_left _ h); omega
      · rcases List.mem_cons.1 h with h | h
        · omega
        · have := hmem a (List.mem_append_right _ h); omega
    · intro a h0 hlt
      have hlt : a < N + 1 := by rw [← hlen']; exact hlt
      by_cases haN : a = N
      · rw [haN]; simp
      · have := hinv.cover a h0 (by rw [hN]; omega)
        rcases List.mem_append.1 this with h | h
        · exact List.mem_append_left _ h
        · exact List.mem_append_right _ (List.mem_cons_of_mem _ h)
    · show heap'.length = (A ++ N :: B).length + 1
      rw [hlen', hNlen]; simp; omega
    · intro a ha
      show 1 ≤ heightAt heap' a ∧
        heightAt heap' a ≤ if level > s.length then level else s.length
      have hcase : a = N ∨ a ∈ A ++ B := by
        rcases List.mem_append.1 ha with h | h
        · right; exact List.mem_append_left _ h
        · rcases List.mem_cons.1 h with h | h
          · left; exact h
          · right; exact List.mem_append_right _ h
      rcases hcase with h | h
      · rw [h, hhN]; split <;> omega
      · rw [hhOld a (hmem a h).2]
        have := hinv.heights a h
        split <;> omega
    · show (A ++ N :: B).Pairwise (fun a b => keyLt (keyAt heap' a) (keyAt heap' b))
      have hso := hinv.sorted
      rw [List.pairwise_append] at hso
      rw [List.pairwise_append, List.pairwise_cons]
      refine ⟨?_, ⟨?_, ?_⟩, ?_⟩
      · apply List.Pairwise.imp_of_mem _ hso.1
        intro a b ha hb hab
        rw [hkeyOld a (hmem a (List.mem_append_left _ ha)).2,
          hkeyOld b (hmem b (List.mem_append_left _ hb)).2]
        exact hab
      · intro b hb
        rw [hkeyN, hkeyOld b (hmem b (List.mem_append_right _ hb)).2]
        rcases keyLt_total data.Key (keyAt s.heap b) with h | h | h
        · exact h
        · exact absurd h.symm (habs b (List.mem_append_right _ hb))
        · exact absurd h (hB b hb)
      · apply List.Pairwise.imp_of_mem _ hso.2.1
        intro a b ha hb hab
        rw [hkeyOld a (hmem a (List.mem_append_right _ ha)).2,
          hkeyOld b (hmem b (List.mem_append_right _ hb)).2]
        exact hab
      · intro a ha b hb
        rw [hkeyOld a (hmem a (List.mem_append_left _ ha)).2]
        rcases List.mem_cons.1 hb with h | h
        · rw [h, hkeyN]; exact hA a ha
        · rw [hkeyOld b (hmem b (List.mem_append_right _ h)).2]
          exact hso.2.2 a ha b h
    · intro b hb
      show NodeOK heap' b
      apply NodeOK_congr _ _ hsh
      have hcase : b = N ∨ b ∈ A ++ B := by
        rcases List.mem_append.1 hb with h | h
        · right; exact List.mem_append_left _ h
        · rcases List.mem_cons.1 h with h | h
          · left; exact h
          · right; exact List.mem_append_right _ h
      rcases hcase with h | h
      · rw [h]
        exact ⟨ne, hnew, by rw [← hne]; rfl⟩
      · obtain ⟨e, he, hsc⟩ := hinv.layout.nodes b h
        exact ⟨e, by rw [hold b (hmem b h).2]; exact he, hsc⟩
    · intro i hi
      show Linked heap' i (0 :: (A ++ N :: B).filter (fun b => decide (i < heightAt heap' b)))
      have hi : i < s.maxLevel := hi
      have hl := hinv.layout.links i hi
      rw [List.filter_append] at hl
      have hFA : A.filter (fun b => decide (i < heightAt heap' b)) =
          A.filter (fun b => decide (i < heightAt s.heap b)) := by
        apply List.filter_congr
        intro a ha
        rw [hhOld a (hmem a (List.mem_append_left _ ha)).2]
      have hFB : B.filter (fun b => decide (i < heightAt heap' b)) =
          B.filter (fun b => decide (i < heightAt s.heap b)) := by
        apply List.filter_congr
        intro a ha
        rw [hhOld a (hmem a (List.mem_append_right _ ha)).2]
      rw [List.filter_append, List.filter_cons, hFA, hFB, hhN]
      have hsub : ∀ a ∈ (0 : Nat) :: (A.filter (fun b => decide (i < heightAt s.heap b)) ++
          B.filter (fun b => decide (i < heightAt s.heap b))), a < N := by
        intro a ha
        rcases List.mem_cons.1 ha with h | h
        · omega
        · rcases List.mem_append.1 h with h | h
          · exact (hmem a (List.mem_append_left _ (List.mem_filter.1 h).1)).2
          · exact (hmem a (List.mem_append_right _ (List.mem_filter.1 h).1)).2
      by_cases hil : i < level
      · simp only [hil, decide_True, if_true]
        have hnd : ((0 : Nat) :: (A.filter (fun b => decide (i < heightAt s.heap b)) ++
            B.filter (fun b => decide (i < heightAt s.heap b)))).Nodup := by
          rw [← List.filter_append, List.nodup_cons]
          constructor
          · intro h0
            have := (hmem 0 (List.mem_filter.1 h0).1).1
            omega
          · exact hinv.nodup.filter _
        have hrange : 0 ≤ i ∧ i < 0 + level := by omega
        apply Linked_insert s.heap heap' i N _ _ 0 hnd hl
        · show getLevel heap' (predAt s.heap 0 A i) i = some (some N)
          rw [hget]
          simp only [hrange, and_self, if_true]
        · show getLevel heap' N i = getLevel s.heap (predAt s.heap 0 A i) i
          rw [hget]
          have hne' : ¬ (N = predAt s.heap 0 A i) := by
            have := hpredlt i; omega
          simp only [hrange, and_self, if_true, hne']
          exact getLevel_eq_of_getElem _ _ _ _ (hold _ (hpredlt i))
        · intro a ha hap
          have haN : ¬ (a = N) := by have := hsub a ha; omega
          have hap' : ¬ (a = predAt s.heap 0 A i) := hap
          rw [hget]
          simp only [hrange, and_self, if_true, hap', haN, if_false]
          exact getLevel_eq_of_getElem _ _ _ _ (hold _ (hsub a ha))
      · simp only [hil, decide_False]
        apply Linked_congr s.heap heap' i _ _ hl
        intro a ha
        have hrange : ¬ (0 ≤ i ∧ i < 0 + level) := by omega
        rw [hget]
        simp only [hrange, if_false]
        exact getLevel_eq_of_getElem _ _ _ _ (hold _ (hsub a ha))
  · intro a ha
    exact ⟨hkeyOld a ha, hentOld a ha⟩

theorem Inv_new : Inv NewSkipList [] := by
  refine ⟨rfl, rfl, by decide, by decide, by simp, ?_, rfl, by simp, List.Pairwise.nil, ?_⟩
  · intro a h0 hlt
    simp [NewSkipList] at hlt
    omega
  · refine ⟨by simp, ?_⟩
    intro i hi
    show getLevel NewSkipList.heap 0 i = some none
    have hi : i < defaultMaxLevel := hi
    simp [getLevel, NewSkipList, newElement, List.getElem?_replicate, hi]

/-- `Search` after a step that stores `data` under its key and keeps the entries
of all other keys. -/
theorem Search_step (s s' : SkipList) (chain chain' : List Nat) (hinv : Inv s chain)
    (hinv' : Inv s' chain') (data : Entry)
    (hkeys : ∀ b ∈ chain, b ∈ chain' ∧ keyAt s'.heap b = keyAt s.heap b ∧
      (keyAt s.heap b ≠ data.Key → entryAt s'.heap b = entryAt s.heap b))
    (hnew : ∃ b ∈ chain', keyAt s'.heap b = data.Key ∧ entryAt s'.heap b = some data)
    (honly : ∀ b ∈ chain', b ∈ chain ∨ keyAt s'.heap b = data.Key) (k : List Byte) :
    Search s' k = if data.Key = k then some (some data) else Search s k := by
  by_cases hk : data.Key = k
  · simp only [hk, if_true]
    obtain ⟨b, hb, hbk, hbe⟩ := hnew
    have := Search_mem s' chain' hinv' b hb
    rw [hbk, hbe, hk] at this
    exact this
  · simp only [hk, if_false]
    by_cases hex : ∃ b ∈ chain, keyAt s.heap b = k
    · obtain ⟨b, hb, hbk⟩ := hex
      obtain ⟨hb', hkey', hent'⟩ := hkeys b hb
      have h1 := Search_mem s chain hinv b hb
      have h2 := Search_mem s' chain' hinv' b hb'
      rw [hkey', hent' (by rw [hbk]; exact fun h => hk h.symm)] at h2
      rw [hbk] at h1 h2
      rw [h1, h2]
    · have habs : ∀ b ∈ chain, keyAt s.heap b ≠ k := fun b hb h => hex ⟨b, hb, h⟩
      have habs' : ∀ b ∈ chain', keyAt s'.heap b ≠ k := by
        intro b hb
        rcases honly b hb with h | h
        · rw [(hkeys b h).2.1]; exact habs b h
        · rw [h]; exact hk
      rw [Search_absent s chain hinv k habs, Search_absent s' chain' hinv' k habs']

/-- One `Add` on a skiplist that satisfies the invariant: it returns, the
invariant holds again, and `Search` finds the new record under its key and what
it found before under every other key. -/
theorem Add_search (s : SkipList) (chain : List Nat) (hinv : Inv s chain)
    (draws : Nat → Nat) (data : Entry) :
    ∃ s' chain', Add s draws data = some s' ∧ Inv s' chain' ∧
      ∀ k, Search s' k = if data.Key = k then some (some data) else Search s k := by
  by_cases hex : ∃ b ∈ chain, keyAt s.heap b = data.Key
  · obtain ⟨b0, hb0, hkey⟩ := hex
    obtain ⟨e, he, hadd, hinv'⟩ := Add_present s chain hinv draws data b0 hb0 hkey
    refine ⟨_, chain, hadd, hinv', ?_⟩
    have hlt : b0 < s.heap.length := (List.getElem?_eq_some.1 he).1
    have hget : ∀ a, (s.heap.set b0 { e with entry := data })[a]? =
        if b0 = a then some { e with entry := data } else s.heap[a]? := by
      intro a
      rw [List.getElem?_set]
      simp [hlt]
    have hek : e.entry.Key = data.Key := by
      rw [← hkey]; unfold keyAt; rw [he]
    have hkeyAll : ∀ a, keyAt (s.heap.set b0 { e with entry := data }) a = keyAt s.heap a := by
      intro a
      unfold keyAt
      rw [hget a]
      by_cases hab : b0 = a
      · subst hab; simp [he, hek]
      · simp [hab]
    apply Search_step s _ chain chain hinv hinv' data
    · intro b hb
      refine ⟨hb, hkeyAll b, ?_⟩
      intro hne
      have hbb : ¬ (b0 = b) := by
        intro h; rw [← h] at hne; exact hne hkey
      show entryAt (s.heap.set b0 { e with entry := data }) b = entryAt s.heap b
      unfold entryAt
      rw [hget b]
      simp [hbb]
    · refine ⟨b0, hb0, ?_, ?_⟩
      · show keyAt (s.heap.set b0 { e with entry := data }) b0 = data.Key
        rw [hkeyAll b0]; exact hkey
      · show entryAt (s.heap.set b0 { e with entry := data }) b0 = some data
        unfold entryAt
        rw [hget b0]
        simp
    · intro b hb
      left; exact hb
  · have habs : ∀ b ∈ chain, keyAt s.heap b ≠ data.Key := fun b hb h => hex ⟨b, hb, h⟩
    obtain ⟨s', A, B, hAB, hadd, hinv', _, hold, hkeyN, hentN⟩ :=
      Add_absent s chain hinv draws data habs
    refine ⟨s', _, hadd, hinv', ?_⟩
    apply Search_step s s' chain _ hinv hinv' data
    · intro b hb
      have hlt := (hinv.range b hb).2
      refine ⟨?_, (hold b hlt).1, fun _ => (hold b hlt).2⟩
      rw [hAB] at hb
      rcases List.mem_append.1 hb with h | h
      · exact List.mem_append_left _ h
      · exact List.mem_append_right _ (List.mem_cons_of_mem _ h)
    · exact ⟨s.heap.length, by simp, hkeyN, hentN⟩
    · intro b hb
      rcases List.mem_append.1 hb with h | h
      · left; rw [hAB]; exact List.mem_append_left _ h
      · rcases List.mem_cons.1 h with h | h
        · right; rw [h]; exact hkeyN
        · left; rw [hAB]; exact List.mem_append_right _ h

/-- A sequence of `Add` calls on a skiplist that satisfies the invariant: every
call returns, and `Search` finds under each key the record of the most recent
`Add` of that key, or what it found before the sequence. -/
theorem addAll_spec : ∀ (ops : List ((Nat → Nat) × Entry)) (s : SkipList) (chain : List Nat),
    Inv s chain →
    ∃ s' chain', addAll s ops = some s' ∧ Inv s' chain' ∧
      ∀ k, Search s' k =
        match latest k (ops.map Prod.snd) with
        | some r => some (some r)
        | none => Search s k := by
  intro ops
  induction ops with
  | nil =>
    intro s chain hinv
    exact ⟨s, chain, rfl, hinv, fun k => rfl⟩
  | cons op ops ih =>
    intro s chain hinv
    obtain ⟨s1, chain1, hadd, hinv1, hs1⟩ := Add_search s chain hinv op.1 op.2
    obtain ⟨s', chain', hall, hinv', hs'⟩ := ih s1 chain1 hinv1
    refine ⟨s', chain', ?_, hinv', ?_⟩
    · unfold addAll
      simp only [hadd]
      exact hall
    · intro k
      rw [hs' k]
      simp only [List.map_cons, latest]
      cases latest k (ops.map Prod.snd) with
      | some r => rfl
      | none =>
        simp only []
        rw [hs1 k]
        by_cases hk : op.2.Key = k
        · simp [hk]
        · simp [hk]

theorem latest_eq_none (k : List Byte) :
    ∀ (es : List Entry), latest k es = none ↔ ∀ e ∈ es, e.Key ≠ k := by
  intro es
  induction es with
  | nil => simp [latest]
  | cons d rest ih =>
    unfold latest
    cases hl : latest k rest with
    | some r =>
      simp only [false_iff, reduceCtorEq]
      intro hall
      have := ih.2 (fun e he => hall e (List.mem_cons_of_mem _ he))
      rw [hl] at this
      exact absurd this (by simp)
    | none =>
      have hrest := ih.1 hl
      by_cases hd : d.Key = k
      · simp [hd]
      · simp only [hd, if_false, true_iff]
        intro e he
        rcases List.mem_cons.1 he with h | h
        · rw [h]; exact hd
        · exact hrest e h

theorem level0From_run (heap : List Element) :
    ∀ (S : List Nat) (a fuel : Nat), S.length < fuel → Linked heap 0 (a :: S) →
      (∀ b ∈ S, NodeOK heap b) →
      level0From heap fuel a = some (S.map (keyAt heap)) := by
  intro S
  induction S with
  | nil =>
    intro a fuel hfuel hl _
    obtain ⟨fuel, rfl⟩ : ∃ f, fuel = f + 1 := ⟨fuel - 1, by simp at hfuel; omega⟩
    unfold level0From
    have hl : getLevel heap a 0 = some none := hl
    simp [hl]
  | cons b S ih =>
    intro a fuel hfuel hl hn
    obtain ⟨fuel, rfl⟩ : ∃ f, fuel = f + 1 := ⟨fuel - 1, by simp at hfuel; omega⟩
    unfold level0From
    obtain ⟨e, he, _⟩ := hn b (by simp)
    have hk : keyAt heap b = e.entry.Key := by unfold keyAt; rw [he]
    have hrec := ih b fuel (by simp at hfuel; omega) hl.2
      (fun x hx => hn x (List.mem_cons_of_mem _ hx))
    simp only [hl.1, he, hrec, List.map_cons, hk]

/-- The level-0 traversal of a skiplist that satisfies the invariant visits its
nodes in order. -/
theorem level0Keys_inv (s : SkipList) (chain : List Nat) (hinv : Inv s chain) :
    level0Keys s = some (chain.map (keyAt s.heap)) := by
  unfold level0Keys
  rw [hinv.hdr]
  have hl := hinv.layout.links 0 (by rw [hinv.maxLevel]; decide)
  have hfil : chain.filter (fun b => decide (0 < heightAt s.heap b)) = chain := by
    apply List.filter_eq_self.2
    intro a ha
    have := (hinv.heights a ha).1
    simp; omega
  rw [hfil] at hl
  exact level0From_run s.heap chain 0 s.heap.length (by rw [hinv.heapLen]; omega) hl
    hinv.layout.nodes

/-! ## Theorems: the skiplist claims -/

theorem Search_new (k : List Byte) : Search NewSkipList k = some none :=
  Search_absent NewSkipList [] Inv_new k (by simp)

/-- C2. Round trip: after any sequence of `Add` calls on a fresh skiplist,
`Search(k)` returns the record of the most recent `Add` whose key is `k`. -/
theorem search_latest (ops : List ((Nat → Nat) × Entry)) (k : List Byte) (r : Entry)
    (h : latest k (ops.map Prod.snd) = some r) :
    ∃ s, addAll NewSkipList ops = some s ∧ Search s k = some (some r) := by
  obtain ⟨s, _, hall, _, hs⟩ := addAll_spec ops NewSkipList [] Inv_new
  refine ⟨s, hall, ?_⟩
  rw [hs k, h]

theorem search_latest_witness :
    latest [97, 112, 112, 108, 101]
        (([((fun j => if j < 2 then 1 else 0), ⟨[98, 97, 110, 97, 110, 97], [49]⟩),
          ((fun _ => 0), ⟨[97, 112, 112, 108, 101], [50]⟩),
          ((fun j => if j < 2 then 1 else 0), ⟨[99, 104, 101, 114, 114, 121], [51]⟩),
          ((fun _ => 0), ⟨[97, 112, 112, 108, 101], [52]⟩)] :
            List ((Nat → Nat) × Entry)).map Prod.snd)
      = some ⟨[97, 112, 112, 108, 101], [52]⟩ ∧
    ∃ s, addAll NewSkipList
        [((fun j => if j < 2 then 1 else 0), ⟨[98, 97, 110, 97, 110, 97], [49]⟩),
          ((fun _ => 0), ⟨[97, 112, 112, 108, 101], [50]⟩),
          ((fun j => if j < 2 then 1 else 0), ⟨[99, 104, 101, 114, 114, 121], [51]⟩),
          ((fun _ => 0), ⟨[97, 112, 112, 108, 101], [52]⟩)] = some s ∧
      Search s [97, 112, 112, 108, 101] = some (some ⟨[97, 112, 112, 108, 101], [52]⟩) :=
  ⟨by decide, search_latest _ _ _ (by decide)⟩

/-- C3. Absence: `Search` on a fresh skiplist returns `nil` for every key, and
after any sequence of `Add` calls `Search(k)` returns `nil` for every key `k`,
the empty key included, that differs from every added key. -/
theorem search_not_added (ops : List ((Nat → Nat) × Entry)) (k : List Byte)
    (h : ∀ op ∈ ops, op.2.Key ≠ k) :
    Search NewSkipList k = some none ∧
    ∃ s, addAll NewSkipList ops = some s ∧ Search s k = some none := by
  refine ⟨Search_new k, ?_⟩
  obtain ⟨s, _, hall, _, hs⟩ := addAll_spec ops NewSkipList [] Inv_new
  refine ⟨s, hall, ?_⟩
  have hnone : latest k (ops.map Prod.snd) = none := by
    rw [latest_eq_none]
    intro e he
    obtain ⟨op, hop, rfl⟩ := List.mem_map.1 he
    exact h op hop
  rw [hs k, hnone]
  exact Search_new k

theorem search_not_added_witness :
    (∀ op ∈ ([((fun j => if j < 2 then 1 else 0), ⟨[98, 97, 110, 97, 110, 97], [49]⟩),
          ((fun _ => 0), ⟨[97, 112, 112, 108, 101], [50]⟩)] : List ((Nat → Nat) × Entry)),
        op.2.Key ≠ []) ∧
    Search NewSkipList [] = some none ∧
    ∃ s, addAll NewSkipList
        [((fun j => if j < 2 then 1 else 0), ⟨[98, 97, 110, 97, 110, 97], [49]⟩),
          ((fun _ => 0), ⟨[97, 112, 112, 108, 101], [50]⟩)] = some s ∧
      Search s [] = some none :=
  ⟨by decide, search_not_added _ _ (by decide)⟩

/-- C4. Order: after any sequence of `Add` calls on a fresh skiplist, the level-0
traversal from the header visits the added keys, each once, in strictly
increasing byte-wise order. -/
theorem level0_sorted (ops : List ((Nat → Nat) × Entry)) :
    ∃ s ks, addAll NewSkipList ops = some s ∧ level0Keys s = some ks ∧
      ks.Pairwise keyLt ∧ ∀ k, k ∈ ks ↔ ∃ op ∈ ops, op.2.Key = k := by
  obtain ⟨s, chain, hall, hinv, hs⟩ := addAll_spec ops NewSkipList [] Inv_new
  refine ⟨s, chain.map (keyAt s.heap), hall, level0Keys_inv s chain hinv, ?_, ?_⟩
  · rw [List.pairwise_map]
    exact hinv.sorted
  · intro k
    have hsk := hs k
    rw [Search_new k] at hsk
    constructor
    · intro hk
      obtain ⟨b, hb, hbk⟩ := List.mem_map.1 hk
      have hfound := Search_mem s chain hinv b hb
      obtain ⟨e, _, hent, _⟩ := entryAt_of_NodeOK s.heap b (hinv.layout.nodes b hb)
      rw [hbk, hent] at hfound
      by_contra hno
      have hnone : latest k (ops.map Prod.snd) = none := by
        rw [latest_eq_none]
        intro d hd
        obtain ⟨op, hop, rfl⟩ := List.mem_map.1 hd
        exact fun hkk => hno ⟨op, hop, hkk⟩
      rw [hnone, hfound] at hsk
      simp at hsk
    · rintro ⟨op, hop, hopk⟩
      by_contra hk
      have habs : ∀ b ∈ chain, keyAt s.heap b ≠ k :=
        fun b hb hbk => hk (List.mem_map.2 ⟨b, hb, hbk⟩)
      have hnone := Search_absent s chain hinv k habs
      rw [hnone] at hsk
      cases hl : latest k (ops.map Prod.snd) with
      | some r => rw [hl] at hsk; simp at hsk
      | none =>
        have := (latest_eq_none k _).1 hl op.2 (List.mem_map.2 ⟨op, hop, rfl⟩)
        exact this hopk

/-- The scenario of the specification: adding banana, apple, cherry yields
apple, banana, cherry at level 0. -/
theorem level0_example :
    (addAll NewSkipList
        [((fun j => if j < 2 then 1 else 0), ⟨[98, 97, 110, 97, 110, 97], [49]⟩),
          ((fun _ => 0), ⟨[97, 112, 112, 108, 101], [50]⟩),
          ((fun j => if j < 2 then 1 else 0), ⟨[99, 104, 101, 114, 114, 121], [51]⟩)]).bind
      level0Keys =
      some [[97, 112, 112, 108, 101], [98, 97, 110, 97, 110, 97], [99, 104, 101, 114, 114, 121]] := by
  decide

/-- C5. Uniqueness: in a skiplist reached from a fresh one by `Add` calls, `Add`
of a record whose key the node at address `a` (not the header) carries returns
the same skiplist with the entry of that node replaced: the number of nodes,
every forward link and `length` are unchanged. -/
theorem add_existing_key (ops : List ((Nat → Nat) × Entry)) (s : SkipList)
    (hreach : addAll NewSkipList ops = some s) (draws : Nat → Nat) (data : Entry)
    (a : Nat) (e : Element) (ha : a ≠ s.header) (he : s.heap[a]? = some e)
    (hkey : e.entry.Key = data.Key) :
    ∃ s', Add s draws data = some s' ∧
      s' = { s with heap := s.heap.set a { e with entry := data } } ∧
      s'.heap.length = s.heap.length ∧ s'.length = s.length ∧
      ∀ b i, getLevel s'.heap b i = getLevel s.heap b i := by
  obtain ⟨s1, chain, hall, hinv, _⟩ := addAll_spec ops NewSkipList [] Inv_new
  rw [hreach] at hall
  simp only [Option.some.injEq] at hall
  subst hall
  have halt : a < s.heap.length := (List.getElem?_eq_some.1 he).1
  have hmem : a ∈ chain := hinv.cover a (by rw [hinv.hdr] at ha; omega) halt
  have hk : keyAt s.heap a = data.Key := by unfold keyAt; rw [he]; exact hkey
  obtain ⟨e', he', hadd, _⟩ := Add_present s chain hinv draws data a hmem hk
  rw [he] at he'
  simp only [Option.some.injEq] at he'
  subst he'
  refine ⟨_, hadd, rfl, ?_, rfl, ?_⟩
  · show (s.heap.set a { e with entry := data }).length = s.heap.length
    rw [List.length_set]
  · intro b i
    show getLevel (s.heap.set a { e with entry := data }) b i = getLevel s.heap b i
    unfold getLevel
    rw [List.getElem?_set]
    by_cases hab : a = b
    · subst hab; simp [halt, he]
    · simp [hab]

theorem add_existing_key_witness :
    addAll NewSkipList [((fun _ => 0), ⟨[98, 97, 110, 97, 110, 97], [49]⟩)] =
      some { heap := [⟨some 1 :: List.replicate 47 none, ⟨[], []⟩, 0⟩,
                      ⟨[none], ⟨[98, 97, 110, 97, 110, 97], [49]⟩,
                        calcScore [98, 97, 110, 97, 110, 97]⟩]
             header := 0, maxLevel := 48, length := 1, size := 0 } ∧
    ∃ s', Add { heap := [⟨some 1 :: List.replicate 47 none, ⟨[], []⟩, 0⟩,
                      ⟨[none], ⟨[98, 97, 110, 97, 110, 97], [49]⟩,
                        calcScore [98, 97, 110, 97, 110, 97]⟩]
                header := 0, maxLevel := 48, length := 1, size := 0 }
          (fun _ => 1) ⟨[98, 97, 110, 97, 110, 97], [50]⟩ = some s' ∧
      s' = { heap := [⟨some 1 :: List.replicate 47 none, ⟨[], []⟩, 0⟩,
                      ⟨[none], ⟨[98, 97, 110, 97, 110, 97], [50]⟩,
                        calcScore [98, 97, 110, 97, 110, 97]⟩]
             header := 0, maxLevel := 48, length := 1, size := 0 } :=
  ⟨by decide,
    (add_existing_key [((fun _ => 0), ⟨[98, 97, 110, 97, 110, 97], [49]⟩)] _ (by decide)
      (fun _ => 1) ⟨[98, 97, 110, 97, 110, 97], [50]⟩ 1
      ⟨[none], ⟨[98, 97, 110, 97, 110, 97], [49]⟩, calcScore [98, 97, 110, 97, 110, 97]⟩
      (by decide) (by decide) (by decide)).imp (fun _ h => ⟨h.1, h.2.1⟩)⟩

/-! ## Theorems: `Add` returns, `Size` -/

theorem randLevelLoop_hit (draws : Nat → Nat) (L : Nat) :
    ∀ (n i : Nat), 1 ≤ i → i ≤ L → L ≤ i + n →
      (∀ j, i - 1 ≤ j → j < L - 1 → draws j % 2 = 1) →
      (L < i + n → draws (L - 1) % 2 = 0) →
      randLevelLoop draws n i = L := by
  intro n
  induction n with
  | zero =>
    intro i _ h2 h3 _ _
    simp only [randLevelLoop]
    omega
  | succ n ih =>
    intro i h1 h2 h3 hodd heven
    unfold randLevelLoop
    by_cases hiL : i = L
    · subst hiL
      have := heven (by omega)
      simp only [this, if_true]
    · have hd : draws (i - 1) % 2 = 1 := hodd (i - 1) (Nat.le_refl _) (by omega)
      have hne : ¬ (draws (i - 1) % 2 = 0) := by omega
      simp only [hne, if_false]
      exact ih (i + 1) (by omega) (by omega) (by omega)
        (fun j hj1 hj2 => hodd j (by omega) hj2) (fun h => heven (by omega))

/-- Every level between 1 and `maxLevel` is the outcome of `randLevel` for some
sequence of draws. -/
theorem randLevel_surj (maxLevel L : Nat) (h1 : 1 ≤ L) (h2 : L ≤ maxLevel) :
    randLevel maxLevel (fun j => if j < L - 1 then 1 else 0) = L := by
  unfold randLevel
  by_cases hm : maxLevel ≤ 1
  · simp only [hm, if_true]; omega
  · simp only [hm, if_false]
    apply randLevelLoop_hit _ L (maxLevel - 1) 1 (Nat.le_refl _) h1 (by omega)
    · intro j _ hj
      simp only [hj, if_true]
    · intro _
      have : ¬ (L - 1 < L - 1) := by omega
      simp only [this, if_false]

/-- C11. `Add` never fails: on every skiplist reached from a fresh one by `Add`
calls, `Add` of any record, for any outcomes of the random source, returns
without a panic (every slice access it performs is in range); and every level
between 1 and `maxLevel` is drawn for some outcomes. -/
theorem add_never_fails (ops : List ((Nat → Nat) × Entry)) (s : SkipList)
    (hreach : addAll NewSkipList ops = some s) (draws : Nat → Nat) (data : Entry) :
    (∃ s', Add s draws data = some s') ∧
    ∀ L, 1 ≤ L → L ≤ s.maxLevel →
      ∃ d s', randLevel s.maxLevel d = L ∧ Add s d data = some s' := by
  obtain ⟨s1, chain, hall, hinv, _⟩ := addAll_spec ops NewSkipList [] Inv_new
  rw [hreach] at hall
  simp only [Option.some.injEq] at hall
  subst hall
  constructor
  · obtain ⟨s', _, hadd, _⟩ := Add_search s chain hinv draws data
    exact ⟨s', hadd⟩
  · intro L h1 h2
    obtain ⟨s', _, hadd, _⟩ :=
      Add_search s chain hinv (fun j => if j < L - 1 then 1 else 0) data
    exact ⟨_, s', randLevel_surj s.maxLevel L h1 h2, hadd⟩

theorem add_never_fails_witness :
    addAll NewSkipList [((fun _ => 0), ⟨[98, 97, 110, 97, 110, 97], [49]⟩)] =
      some { heap := [⟨some 1 :: List.replicate 47 none, ⟨[], []⟩, 0⟩,
                      ⟨[none], ⟨[98, 97, 110, 97, 110, 97], [49]⟩,
                        calcScore [98, 97, 110, 97, 110, 97]⟩]
             header := 0, maxLevel := 48, length := 1, size := 0 } ∧
    ∃ s', Add { heap := [⟨some 1 :: List.replicate 47 none, ⟨[], []⟩, 0⟩,
                      ⟨[none], ⟨[98, 97, 110, 97, 110, 97], [49]⟩,
                        calcScore [98, 97, 110, 97, 110, 97]⟩]
                header := 0, maxLevel := 48, length := 1, size := 0 }
          (fun _ => 1) ⟨[], [50]⟩ = some s' :=
  ⟨by decide,
    (add_never_fails [((fun _ => 0), ⟨[98, 97, 110, 97, 110, 97], [49]⟩)] _ (by decide)
      (fun _ => 1) ⟨[], [50]⟩).1⟩

theorem Add_size (s s' : SkipList) (draws : Nat → Nat) (data : Entry)
    (h : Add s draws data = some s') : s'.size = s.size := by
  unfold Add at h
  simp only [] at h
  split at h
  · exact absurd h (by simp)
  · split at h
    · exact absurd h (by simp)
    · simp only [Option.some.injEq] at h
      rw [← h]
  · split at h
    · exact absurd h (by simp)
    · simp only [Option.some.injEq] at h
      rw [← h]

theorem addAll_size : ∀ (ops : List ((Nat → Nat) × Entry)) (s s' : SkipList),
    addAll s ops = some s' → s'.size = s.size := by
  intro ops
  induction ops with
  | nil =>
    intro s s' h
    simp only [addAll, Option.some.injEq] at h
    rw [h]
  | cons op ops ih =>
    intro s s' h
    unfold addAll at h
    split at h
    · exact absurd h (by simp)
    · rename_i s1 h1
      rw [ih s1 s' h, Add_size s s1 op.1 op.2 h1]

/-- C12, as stated, fails: after `Add` of a record with a non-empty key and value
to a fresh skiplist, `Size()` is 0. -/
theorem size_zero_after_add :
    ∃ s, Add NewSkipList (fun _ => 0) ⟨[97], [49]⟩ = some s ∧ Size s = 0 ∧ s.size = 0 := by
  obtain ⟨s, _, hadd, _⟩ := Add_search NewSkipList [] Inv_new (fun _ => 0) ⟨[97], [49]⟩
  exact ⟨s, hadd, rfl, Add_size _ _ _ _ hadd⟩

/-- C12, amended. `Size()` returns 0 on every skiplist, and the field `size`
is 0 in every skiplist reached from a fresh one by `Add` calls: no insert or
update changes it. -/
theorem size_always_zero (ops : List ((Nat → Nat) × Entry)) (s : SkipList)
    (hreach : addAll NewSkipList ops = some s) : Size s = 0 ∧ s.size = 0 :=
  ⟨rfl, addAll_size ops NewSkipList s hreach⟩

theorem size_always_zero_witness :
    addAll NewSkipList [((fun _ => 0), ⟨[98, 97, 110, 97, 110, 97], [49]⟩)] =
      some { heap := [⟨some 1 :: List.replicate 47 none, ⟨[], []⟩, 0⟩,
                      ⟨[none], ⟨[98, 97, 110, 97, 110, 97], [49]⟩,
                        calcScore [98, 97, 110, 97, 110, 97]⟩]
             header := 0, maxLevel := 48, length := 1, size := 0 } ∧
    Size { heap := [⟨some 1 :: List.replicate 47 none, ⟨[], []⟩, 0⟩,
                      ⟨[none], ⟨[98, 97, 110, 97, 110, 97], [49]⟩,
                        calcScore [98, 97, 110, 97, 110, 97]⟩]
           header := 0, maxLevel := 48, length := 1, size := 0 } = 0 :=
  ⟨by decide,
    (size_always_zero [((fun _ => 0), ⟨[98, 97, 110, 97, 110, 97], [49]⟩)] _ (by decide)).1⟩

/-! ## Theorems: hashing, false positives, totality -/

theorem filterK_ten (conv : Int → Nat) : filterK conv 10 = 6 := by
  have h := filterK_eq conv 10 (by decide)
  have h6 : max (1 : Int) (min 30 (10 * 69 / 100)) = 6 := by decide
  rw [h6] at h
  omega

/-- C15. False positives are possible: for the key list `[1]` and
`bitsPerKey = 10`, the hash 65, which is not in the list, is reported present. -/
theorem false_positive_exists (conv : Int → Nat) :
    ∃ (keys : List Nat) (bitsPerKey : Int) (h : Nat) (f : List Byte),
      h ∉ keys ∧ h < 2 ^ 32 ∧ NewFilter conv keys bitsPerKey = some f ∧
        MayContain f h = some true := by
  refine ⟨[1], 10, 65, [2, 0, 0, 0, 0, 0, 0, 0, 6], by decide, by decide, ?_, by decide⟩
  unfold NewFilter appendFilter
  simp only [filterK_ten]
  decide

/-- C18. The score is order-preserving: `calcScore` converts the first eight
bytes of the key, packed big-endian with missing bytes zero, to `float64`; a key
that is byte-wise below another has a score that is not above; and against a
node that carries the score of its key, `compare` returns what `bytes.Compare`
returns on the keys, also when the two scores are equal. -/
theorem score_order_preserving (a b : List Byte) (next : Element) :
    calcScore a = round53 (beAt a 8 0) ∧
    (keyLt a b → calcScore a ≤ calcScore b) ∧
    (next.score = calcScore next.entry.Key →
      compare (calcScore a) a next = bytesCompare a next.entry.Key) :=
  ⟨calcScore_eq a, calcScore_mono a b, compare_eq_bytesCompare a next⟩

theorem score_order_preserving_witness :
    keyLt [255, 255, 255, 255, 255, 255, 255, 254] [255, 255, 255, 255, 255, 255, 255, 255] ∧
    calcScore [255, 255, 255, 255, 255, 255, 255, 254] =
      calcScore [255, 255, 255, 255, 255, 255, 255, 255] ∧
    compare (calcScore [255, 255, 255, 255, 255, 255, 255, 254])
      [255, 255, 255, 255, 255, 255, 255, 254]
      ⟨[none], ⟨[255, 255, 255, 255, 255, 255, 255, 255], []⟩,
        calcScore [255, 255, 255, 255, 255, 255, 255, 255]⟩ = -1 :=
  ⟨by unfold keyLt; decide, by decide,
    ((score_order_preserving [255, 255, 255, 255, 255, 255, 255, 254] []
      ⟨[none], ⟨[255, 255, 255, 255, 255, 255, 255, 255], []⟩,
        calcScore [255, 255, 255, 255, 255, 255, 255, 255]⟩).2.2 rfl).trans (by decide)⟩

/-- C20: with the single hash 0 and `bitsPerKey = 2 ^ 32`, `appendFilter` panics
on the division by the `uint32` conversion of the bit-array size, which is 0. -/
theorem appendFilter_divides_by_zero :
    filterBytes [0].length (2 ^ 32) * 8 = 2 ^ 32 ∧
    toUint32 (wrapInt64 (filterBytes [0].length (2 ^ 32) * 8)) = 0 ∧
    appendFilter (fun _ => 0) [0] (2 ^ 32) = none :=
  ⟨by decide, by decide, newFilter_zero_modulus _ _⟩

/-- C13: `MayContainKey(key)` is `MayContain(Hash(key))`, but with the single key
`a` and `bitsPerKey = 2 ^ 32` no filter is built from the hash of the key:
`NewFilter` panics. -/
theorem newFilter_of_hash_panics :
    (∀ f key, MayContainKey f key = MayContain f (Hash key)) ∧
    NewFilter (fun _ => 0) ([[97]].map Hash) (2 ^ 32) = none :=
  ⟨fun _ _ => rfl, newFilter_zero_modulus _ _⟩

/-- When the bit array has fewer than `2 ^ 32` bits, every hash of the key list
is reported present by the filter built from the list. -/
theorem newFilter_present_of_mem (conv : Int → Nat) (keys : List Nat)
    (bitsPerKey : Int) (h : Nat)
    (h0 : 0 ≤ filterBytes keys.length bitsPerKey)
    (hsize : filterBytes keys.length bitsPerKey * 8 < 2 ^ 32)
    (hmem : h ∈ keys) :
    ∃ f, NewFilter conv keys bitsPerKey = some f ∧ MayContain f h = some true := by
  obtain ⟨g, _, hglen, hgp, hf⟩ := appendFilter_eq conv keys bitsPerKey h0 hsize
  have h8 := filterBytes_ge _ _ h0
  have hk := filterK_bounds conv bitsPerKey
  generalize hmB : filterBytes keys.length bitsPerKey = mB at *
  obtain ⟨M, rfl⟩ : ∃ M : Nat, mB = (M : Int) := ⟨mB.toNat, by omega⟩
  simp only [Int.toNat_ofNat] at hglen hgp hf
  generalize hk0 : filterK conv bitsPerKey = k at *
  refine ⟨_, hf, ?_⟩
  have hM8 : 8 ≤ M := by omega
  have hlen : (g.set M (Fin.ofNat (k % 2 ^ 8) : Byte)).length = M + 1 := by
    rw [List.length_set, hglen]
  have hlast : (g.set M (Fin.ofNat (k % 2 ^ 8) : Byte))[M]? =
      some (Fin.ofNat (k % 2 ^ 8) : Byte) := by
    rw [List.getElem?_set]; simp [hglen]
  have hkval : ((Fin.ofNat (k % 2 ^ 8) : Byte)).val = k := by
    show k % 2 ^ 8 % 256 = k
    omega
  have hu : toUint32 (8 * (((M + 1 : Nat) : Int) - 1)) = M * 8 := by
    unfold toUint32; omega
  unfold MayContain
  have hn2 : ¬ (M + 1 < 2) := by omega
  simp only [hlen, hn2, if_false, Nat.add_sub_cancel, hlast, hkval, hu]
  have hn30 : ¬ (k > 30) := by omega
  simp only [hn30, if_false]
  apply mayContainLoop_of_probesSet _ _ _ (by omega)
  apply probesSet_mono g _ (M * 8) _ (by omega) _ _ _ (hgp h hmem)
  intro pos hpos hb
  rw [bitAt_set_other _ _ _ _ (by omega)]
  exact hb

/-- The part of C13 that the code keeps: when the bit array has fewer than
`2 ^ 32` bits, the filter built from the hashes of the keys reports every key of
the list present. -/
theorem mayContainKey_of_mem (conv : Int → Nat) (keys : List (List Byte))
    (bitsPerKey : Int) (key : List Byte)
    (h0 : 0 ≤ filterBytes keys.length bitsPerKey)
    (hsize : filterBytes keys.length bitsPerKey * 8 < 2 ^ 32)
    (hmem : key ∈ keys) :
    ∃ f, NewFilter conv (keys.map Hash) bitsPerKey = some f ∧
      MayContainKey f key = some true := by
  have hlen : (keys.map Hash).length = keys.length := List.length_map _ _
  exact newFilter_present_of_mem conv (keys.map Hash) bitsPerKey (Hash key)
    (by rw [hlen]; exact h0) (by rw [hlen]; exact hsize) (List.mem_map_of_mem Hash hmem)

/-! ## Theorems: the ordering of every level -/

theorem levelFrom_run (heap : List Element) (i : Nat) :
    ∀ (S : List Nat) (a fuel : Nat), S.length < fuel → Linked heap i (a :: S) →
      levelFrom heap i fuel a = some S := by
  intro S
  induction S with
  | nil =>
    intro a fuel hfuel hl
    obtain ⟨fuel, rfl⟩ : ∃ f, fuel = f + 1 := ⟨fuel - 1, by simp at hfuel; omega⟩
    unfold levelFrom
    have hl : getLevel heap a i = some none := hl
    simp only [hl]
  | cons b S ih =>
    intro a fuel hfuel hl
    obtain ⟨fuel, rfl⟩ : ∃ f, fuel = f + 1 := ⟨fuel - 1, by simp at hfuel; omega⟩
    unfold levelFrom
    have hrec := ih b fuel (by simp at hfuel; omega) hl.2
    simp only [hl.1, hrec]

theorem pairLt_of_keyLt (heap : List Element) (a b : Nat) (ha : NodeOK heap a)
    (hb : NodeOK heap b) (hlt : keyLt (keyAt heap a) (keyAt heap b)) :
    pairLt (scoreAt heap a) (keyAt heap a) (scoreAt heap b) (keyAt heap b) := by
  obtain ⟨ea, hea, hsa⟩ := ha
  obtain ⟨eb, heb, hsb⟩ := hb
  have h1 : scoreAt heap a = calcScore (keyAt heap a) := by
    unfold scoreAt keyAt; rw [hea]; exact hsa
  have h2 : scoreAt heap b = calcScore (keyAt heap b) := by
    unfold scoreAt keyAt; rw [heb]; exact hsb
  rw [h1, h2]
  have hm := calcScore_mono _ _ hlt
  unfold pairLt
  by_cases heq : calcScore (keyAt heap a) = calcScore (keyAt heap b)
  · right; exact ⟨heq, hlt⟩
  · left; omega

/-- C17. Per-level ordering: in every skiplist reached from a fresh one by `Add`
calls, at every level `i` below `maxLevel` the nodes that the forward links lead
through from the header are strictly increasing in the pair (score, key), and
the header and every node of the chain have more than `i` forward links. -/
theorem level_chain_sorted (ops : List ((Nat → Nat) × Entry)) (s : SkipList)
    (hreach : addAll NewSkipList ops = some s) (i : Nat) (hi : i < s.maxLevel) :
    ∃ nodes, levelChain s i = some nodes ∧
      nodes.Pairwise (fun a b =>
        pairLt (scoreAt s.heap a) (keyAt s.heap a) (scoreAt s.heap b) (keyAt s.heap b)) ∧
      (∀ a ∈ nodes, i < heightAt s.heap a) ∧ i < heightAt s.heap s.header := by
  obtain ⟨s1, chain, hall, hinv, _⟩ := addAll_spec ops NewSkipList [] Inv_new
  rw [hreach] at hall
  simp only [Option.some.injEq] at hall
  subst hall
  have hl := hinv.layout.links i hi
  refine ⟨chain.filter (fun b => decide (i < heightAt s.heap b)), ?_, ?_, ?_, ?_⟩
  · unfold levelChain
    rw [hinv.hdr]
    apply levelFrom_run s.heap i _ 0 s.heap.length _ hl
    have := List.length_filter_le (fun b => decide (i < heightAt s.heap b)) chain
    rw [hinv.heapLen]; omega
  · apply List.Pairwise.filter
    apply List.Pairwise.imp_of_mem _ hinv.sorted
    intro a b ha hb hab
    exact pairLt_of_keyLt s.heap a b (hinv.layout.nodes a ha) (hinv.layout.nodes b hb) hab
  · intro a ha
    simpa using (List.mem_filter.1 ha).2
  · rw [hinv.hdr]
    exact (getLevel_isSome s.heap 0 i).1 ⟨_, Linked_head s.heap i 0 _ hl⟩

theorem level_chain_sorted_witness :
    addAll NewSkipList
        [((fun j => if j < 2 then 1 else 0), ⟨[98, 97, 110, 97, 110, 97], [49]⟩),
          ((fun _ => 0), ⟨[97, 112, 112, 108, 101], [50]⟩)] =
      some { heap := [⟨some 2 :: some 1 :: some 1 :: List.replicate 45 none, ⟨[], []⟩, 0⟩,
                      ⟨[none, none, none], ⟨[98, 97, 110, 97, 110, 97], [49]⟩,
                        calcScore [98, 97, 110, 97, 110, 97]⟩,
                      ⟨[some 1], ⟨[97, 112, 112, 108, 101], [50]⟩,
                        calcScore [97, 112, 112, 108, 101]⟩]
             header := 0, maxLevel := 48, length := 3, size := 0 } ∧
    (1 : Nat) < 48 ∧
    ∃ nodes, levelChain
        { heap := [⟨some 2 :: some 1 :: some 1 :: List.replicate 45 none, ⟨[], []⟩, 0⟩,
                      ⟨[none, none, none], ⟨[98, 97, 110, 97, 110, 97], [49]⟩,
                        calcScore [98, 97, 110, 97, 110, 97]⟩,
                      ⟨[some 1], ⟨[97, 112, 112, 108, 101], [50]⟩,
                        calcScore [97, 112, 112, 108, 101]⟩]
          header := 0, maxLevel := 48, length := 3, size := 0 } 1 = some nodes :=
  ⟨by decide, by decide,
    (level_chain_sorted
      [((fun j => if j < 2 then 1 else 0), ⟨[98, 97, 110, 97, 110, 97], [49]⟩),
        ((fun _ => 0), ⟨[97, 112, 112, 108, 101], [50]⟩)] _ (by decide) 1 (by decide)).imp
      (fun _ h => h.1)⟩

/-! ## Theorems: the exact bit set of a filter -/

theorem bitAt_set_exact (f : List Byte) (pos q : Nat) (b : Byte)
    (hb : f[pos / 8]? = some b) :
    (bitAt (f.set (pos / 8) (Fin.ofNat (b.val ||| (1 <<< (pos % 8))))) q = true) ↔
      (bitAt f q = true ∨ q = pos) := by
  have hlt : pos / 8 < f.length := (List.getElem?_eq_some.1 hb).1
  have h8 : q % 8 < 8 := Nat.mod_lt _ (by decide)
  unfold bitAt
  rw [List.getElem?_set]
  by_cases hidx : pos / 8 = q / 8
  · rw [← hidx, hb]
    simp only [if_true, hlt]
    show Nat.testBit ((b.val ||| (1 <<< (pos % 8))) % 2 ^ 8) (q % 8) = true ↔ _
    rw [Nat.testBit_mod_two_pow, Nat.testBit_or, Nat.one_shiftLeft, Nat.testBit_two_pow]
    simp only [h8, decide_True, Bool.true_and, Bool.or_eq_true, decide_eq_true_eq]
    constructor
    · rintro (h | h)
      · left; exact h
      · right; omega
    · rintro (h | h)
      · left; exact h
      · right; omega
  · simp only [hidx, if_false]
    constructor
    · intro h; left; exact h
    · rintro (h | h)
      · exact h
      · exact absurd (by rw [h]) hidx

theorem appendFilterInner_exact (m32 delta : Nat) (hm : m32 ≠ 0) :
    ∀ (cnt h : Nat) (filter : List Byte), h < 2 ^ 32 → m32 ≤ 8 * filter.length →
      ∃ g, appendFilterInner m32 delta cnt h filter = some g ∧ g.length = filter.length ∧
        ∀ q, bitAt g q = true ↔
          (bitAt filter q = true ∨ ∃ i, i < cnt ∧ q = ((h + i * delta) % 2 ^ 32) % m32) := by
  intro cnt
  induction cnt with
  | zero =>
    intro h filter _ _
    refine ⟨filter, rfl, rfl, ?_⟩
    intro q
    constructor
    · intro hq; left; exact hq
    · rintro (hq | ⟨i, hi, _⟩)
      · exact hq
      · omega
  | succ cnt ih =>
    intro h filter hh hlen
    have hpos : h % m32 < m32 := Nat.mod_lt _ (Nat.pos_of_ne_zero hm)
    have hidx : h % m32 / 8 < filter.length := by omega
    obtain ⟨b, hb⟩ : ∃ b, filter[h % m32 / 8]? = some b :=
      ⟨_, List.getElem?_eq_getElem hidx⟩
    obtain ⟨g, hg, hglen, hgbits⟩ :=
      ih ((h + delta) % 2 ^ 32)
        (filter.set (h % m32 / 8) (Fin.ofNat (b.val ||| (1 <<< (h % m32 % 8)))))
        (Nat.mod_lt _ (by decide))
        (by rw [List.length_set]; exact hlen)
    refine ⟨g, ?_, by rw [hglen, List.length_set], ?_⟩
    · unfold appendFilterInner
      simp only [hm, if_false, hb]
      exact hg
    · intro q
      rw [hgbits q, bitAt_set_exact filter (h % m32) q b hb]
      have hstep : ∀ i, ((h + delta) % 2 ^ 32 + i * delta) % 2 ^ 32 =
          (h + (i + 1) * delta) % 2 ^ 32 := by
        intro i
        rw [Nat.succ_mul]
        generalize i * delta = X
        omega
      constructor
      · rintro ((hq | hq) | ⟨i, hi, hq⟩)
        · left; exact hq
        · right
          refine ⟨0, by omega, ?_⟩
          rw [hq, Nat.zero_mul, Nat.add_zero, Nat.mod_eq_of_lt hh]
        · right
          refine ⟨i + 1, by omega, ?_⟩
          rw [hq, hstep i]
      · rintro (hq | ⟨i, hi, hq⟩)
        · left; left; exact hq
        · cases i with
          | zero =>
            left; right
            rw [hq, Nat.zero_mul, Nat.add_zero, Nat.mod_eq_of_lt hh]
          | succ i =>
            right
            refine ⟨i, by omega, ?_⟩
            rw [hq, hstep i]

theorem appendFilterLoop_exact (m32 k : Nat) (hm : m32 ≠ 0) :
    ∀ (keys : List Nat) (filter : List Byte), (∀ n ∈ keys, n < 2 ^ 32) →
      m32 ≤ 8 * filter.length →
      ∃ g, appendFilterLoop m32 k keys filter = some g ∧ g.length = filter.length ∧
        ∀ q, bitAt g q = true ↔
          (bitAt filter q = true ∨
            ∃ n ∈ keys, ∃ i, i < k ∧ q = ((n + i * rotDelta n) % 2 ^ 32) % m32) := by
  intro keys
  induction keys with
  | nil =>
    intro filter _ _
    refine ⟨filter, rfl, rfl, ?_⟩
    intro q
    simp
  | cons n keys ih =>
    intro filter hkeys hlen
    obtain ⟨g1, hg1, hlen1, hbits1⟩ :=
      appendFilterInner_exact m32 (rotDelta n) hm k n filter (hkeys n (by simp)) hlen
    obtain ⟨g, hg, hglen, hgbits⟩ :=
      ih g1 (fun x hx => hkeys x (List.mem_cons_of_mem _ hx)) (by rw [hlen1]; exact hlen)
    refine ⟨g, ?_, by rw [hglen, hlen1], ?_⟩
    · unfold appendFilterLoop
      simp only [hg1]
      exact hg
    · intro q
      rw [hgbits q, hbits1 q]
      constructor
      · rintro ((hq | ⟨i, hi, hq⟩) | ⟨x, hx, i, hi, hq⟩)
        · left; exact hq
        · right; exact ⟨n, by simp, i, hi, hq⟩
        · right; exact ⟨x, List.mem_cons_of_mem _ hx, i, hi, hq⟩
      · rintro (hq | ⟨x, hx, i, hi, hq⟩)
        · left; left; exact hq
        · rcases List.mem_cons.1 hx with rfl | hx
          · left; right; exact ⟨i, hi, hq⟩
          · right; exact ⟨x, hx, i, hi, hq⟩

theorem bitAt_replicate_zero (len q : Nat) :
    bitAt (List.replicate len (0 : Byte)) q = false := by
  unfold bitAt
  rw [List.getElem?_replicate]
  by_cases h : q / 8 < len
  · simp only [h, if_true]
    exact Nat.zero_testBit _
  · simp only [h, if_false]

theorem mayContainLoop_first_clear (f : List Byte) (m32 delta cnt h : Nat) (hm : m32 ≠ 0)
    (hlen : m32 ≤ 8 * f.length) (hclear : bitAt f (h % m32) = false) :
    mayContainLoop f m32 delta (cnt + 1) h = some false := by
  have hpos : h % m32 < m32 := Nat.mod_lt _ (Nat.pos_of_ne_zero hm)
  have hidx : h % m32 / 8 < f.length := by omega
  obtain ⟨b, hb⟩ : ∃ b, f[h % m32 / 8]? = some b := ⟨_, List.getElem?_eq_getElem hidx⟩
  unfold bitAt at hclear
  rw [hb] at hclear
  simp only [] at hclear
  unfold mayContainLoop
  simp only [hm, if_false, hb]
  have hz : b.val &&& (1 <<< (h % m32 % 8)) = 0 :=
    (and_one_shiftLeft_eq_zero _ _).2 hclear
  simp only [hz, if_true]

/-- C19. The exact bit set of a built filter: when the hashes are 32-bit and the
bit array has `mBits < 2 ^ 32` bits, bit `j` of the bit array of
`NewFilter(keys, bitsPerKey)` is set exactly when
`j = ((n + i * rotr17(n)) mod 2 ^ 32) mod mBits` for a hash `n` of `keys` and a
round `i < k`; with an empty key list every bit is clear and `MayContain` returns
`false` for every hash. -/
theorem newFilter_bits (conv : Int → Nat) (keys : List Nat) (bitsPerKey : Int)
    (hkeys : ∀ n ∈ keys, n < 2 ^ 32)
    (h0 : 0 ≤ filterBytes keys.length bitsPerKey)
    (hsize : filterBytes keys.length bitsPerKey * 8 < 2 ^ 32) :
    ∃ f, NewFilter conv keys bitsPerKey = some f ∧
      (∀ j, j < (filterBytes keys.length bitsPerKey).toNat * 8 →
        (bitAt f j = true ↔
          ∃ n ∈ keys, ∃ i, i < filterK conv bitsPerKey ∧
            j = ((n + i * rotDelta n) % 2 ^ 32) %
              ((filterBytes keys.length bitsPerKey).toNat * 8))) ∧
      (keys = [] →
        (∀ j, j < (filterBytes keys.length bitsPerKey).toNat * 8 → bitAt f j = false) ∧
        ∀ h, MayContain f h = some false) := by
  obtain ⟨g, hg, hglen, _, hf⟩ := appendFilter_eq conv keys bitsPerKey h0 hsize
  have h8 := filterBytes_ge _ _ h0
  have hk := filterK_bounds conv bitsPerKey
  generalize hmB : filterBytes keys.length bitsPerKey = mB at *
  obtain ⟨M, rfl⟩ : ∃ M : Nat, mB = (M : Int) := ⟨mB.toNat, by omega⟩
  simp only [Int.toNat_ofNat] at hglen hg hf ⊢
  generalize hk0 : filterK conv bitsPerKey = k at *
  have hM8 : 8 ≤ M := by omega
  obtain ⟨g', hg', _, hbits⟩ := appendFilterLoop_exact (M * 8) k (by omega) keys
    (List.replicate (M + 1) (0 : Byte)) hkeys (by rw [List.length_replicate]; omega)
  rw [hg] at hg'
  simp only [Option.some.injEq] at hg'
  subst hg'
  have hbitsf : ∀ j, j < M * 8 →
      (bitAt (g.set M (Fin.ofNat (k % 2 ^ 8) : Byte)) j = true ↔
        ∃ n ∈ keys, ∃ i, i < k ∧ j = ((n + i * rotDelta n) % 2 ^ 32) % (M * 8)) := by
    intro j hj
    rw [bitAt_set_other _ _ _ _ (by omega), hbits j, bitAt_replicate_zero]
    simp
  refine ⟨_, hf, hbitsf, ?_⟩
  intro hnil
  have hclear : ∀ j, j < M * 8 → bitAt (g.set M (Fin.ofNat (k % 2 ^ 8) : Byte)) j = false := by
    intro j hj
    cases hb : bitAt (g.set M (Fin.ofNat (k % 2 ^ 8) : Byte)) j with
    | false => rfl
    | true =>
      obtain ⟨n, hn, _⟩ := (hbitsf j hj).1 hb
      rw [hnil] at hn
      simp at hn
  refine ⟨hclear, ?_⟩
  intro h
  have hlen : (g.set M (Fin.ofNat (k % 2 ^ 8) : Byte)).length = M + 1 := by
    rw [List.length_set, hglen]
  have hlast : (g.set M (Fin.ofNat (k % 2 ^ 8) : Byte))[M]? =
      some (Fin.ofNat (k % 2 ^ 8) : Byte) := by
    rw [List.getElem?_set]; simp [hglen]
  have hkval : ((Fin.ofNat (k % 2 ^ 8) : Byte)).val = k := by
    show k % 2 ^ 8 % 256 = k
    omega
  have hu : toUint32 (8 * (((M + 1 : Nat) : Int) - 1)) = M * 8 := by
    unfold toUint32; omega
  unfold MayContain
  have hn2 : ¬ (M + 1 < 2) := by omega
  simp only [hlen, hn2, if_false, Nat.add_sub_cancel, hlast, hkval, hu]
  have hn30 : ¬ (k > 30) := by omega
  simp only [hn30, if_false]
  obtain ⟨k', rfl⟩ : ∃ k', k = k' + 1 := ⟨k - 1, by omega⟩
  apply mayContainLoop_first_clear _ _ _ _ _ (by omega) (by rw [hlen]; omega)
  exact hclear _ (Nat.mod_lt _ (by omega))

theorem newFilter_bits_witness :
    (∀ n ∈ ([1, 2, 3] : List Nat), n < 2 ^ 32) ∧
    0 ≤ filterBytes [1, 2, 3].length 10 ∧ filterBytes [1, 2, 3].length 10 * 8 < 2 ^ 32 ∧
    ∃ f, NewFilter (fun _ => 0) [1, 2, 3] 10 = some f ∧
      (∀ j, j < (filterBytes [1, 2, 3].length 10).toNat * 8 →
        (bitAt f j = true ↔
          ∃ n ∈ [1, 2, 3], ∃ i, i < filterK (fun _ => 0) 10 ∧
            j = ((n + i * rotDelta n) % 2 ^ 32) %
              ((filterBytes [1, 2, 3].length 10).toNat * 8))) :=
  ⟨by decide, by decide, by decide,
    (newFilter_bits (fun _ => 0) [1, 2, 3] 10 (by decide) (by decide) (by decide)).imp
      (fun _ h => ⟨h.1, h.2.1⟩)⟩

end Corekv
